import Mathlib

/-!
Verification development for the English→Tengwar / Black Speech transliterator
(`english_to_tengwar.py`).  The Python source is shallowly embedded over an
ASCII + Latin-1 character repertoire: strings are `List Char`, Python's
`str.lower`/`str.isalpha`/`str.isspace` are modelled on that repertoire,
fallible code (the transducer, which can raise `NotImplementedError`,
`KeyError` or `IndexError`) returns `Option`.
-/

set_option maxHeartbeats 1000000
set_option maxRecDepth 100000

namespace Tengwar

/-- Backtick character (the short carrier glyph of the source, `short_carrier`). -/
def carrierChar : Char := Char.ofNat 96

/-- Apostrophe character. -/
def apostChar : Char := Char.ofNat 39

/-- Opening curly brace character (punctuation-table key). -/
def lbraceChar : Char := Char.ofNat 123

/-- Closing curly brace character (punctuation-table key). -/
def rbraceChar : Char := Char.ofNat 125

/-- The ASCII lowercase letters. -/
def lowerAZchars : List Char := "abcdefghijklmnopqrstuvwxyz".toList

/-- ASCII lowercase letter test. -/
def isLowerAZ (c : Char) : Bool := lowerAZchars.contains c

/-- Model of Python `str.isalpha` on the ASCII + Latin-1 repertoire:
ASCII letters, plus the Latin-1 letters ª (0xAA), µ (0xB5), º (0xBA) and
the 0xC0–0xFF block without the two operators × (0xD7) and ÷ (0xF7). -/
def pyIsAlpha (c : Char) : Bool :=
  c.isAlpha || c.toNat == 0xAA || c.toNat == 0xB5 || c.toNat == 0xBA ||
    (0xC0 ≤ c.toNat && c.toNat ≤ 0xFF && c.toNat != 0xD7 && c.toNat != 0xF7)

/-- Model of Python `str.isspace` for single characters (ASCII + Latin-1):
tab, newline, vertical tab, form feed, carriage return, the separators
0x1C–0x1F, space, next-line 0x85 and no-break space 0xA0. -/
def pyIsSpace (c : Char) : Bool :=
  (9 ≤ c.toNat && c.toNat ≤ 13) || (28 ≤ c.toNat && c.toNat ≤ 32) ||
    c.toNat == 0x85 || c.toNat == 0xA0

/-- The uppercase→lowercase pairs of Python `str.lower` restricted to the
ASCII + Latin-1 repertoire: A–Z→a–z and À–Þ→à–þ (skipping ×). -/
def pyLowerPairs : List (Char × Char) :=
  [('A', 'a'), ('B', 'b'), ('C', 'c'), ('D', 'd'), ('E', 'e'), ('F', 'f'),
   ('G', 'g'), ('H', 'h'), ('I', 'i'), ('J', 'j'), ('K', 'k'), ('L', 'l'),
   ('M', 'm'), ('N', 'n'), ('O', 'o'), ('P', 'p'), ('Q', 'q'), ('R', 'r'),
   ('S', 's'), ('T', 't'), ('U', 'u'), ('V', 'v'), ('W', 'w'), ('X', 'x'),
   ('Y', 'y'), ('Z', 'z'),
   ('À', 'à'), ('Á', 'á'), ('Â', 'â'), ('Ã', 'ã'), ('Ä', 'ä'), ('Å', 'å'),
   ('Æ', 'æ'), ('Ç', 'ç'), ('È', 'è'), ('É', 'é'), ('Ê', 'ê'), ('Ë', 'ë'),
   ('Ì', 'ì'), ('Í', 'í'), ('Î', 'î'), ('Ï', 'ï'), ('Ð', 'ð'), ('Ñ', 'ñ'),
   ('Ò', 'ò'), ('Ó', 'ó'), ('Ô', 'ô'), ('Õ', 'õ'), ('Ö', 'ö'), ('Ø', 'ø'),
   ('Ù', 'ù'), ('Ú', 'ú'), ('Û', 'û'), ('Ü', 'ü'), ('Ý', 'ý'), ('Þ', 'þ')]

/-- Model of Python `str.lower` per character on the modelled repertoire. -/
def pyLower (c : Char) : Char := (pyLowerPairs.lookup c).getD c

/-- Model of Python `str.isdigit` per character on the ASCII + Latin-1
repertoire: the decimal digits 0–9 plus the superscripts ² (0xB2),
³ (0xB3) and ¹ (0xB9), which carry the Unicode digit property. -/
def pyIsDigit (c : Char) : Bool :=
  c.isDigit || c.toNat == 0xB2 || c.toNat == 0xB3 || c.toNat == 0xB9

/-- Model of Python `str.isnumeric` per character on the repertoire: the
digit characters plus the vulgar fractions ¼ (0xBC), ½ (0xBD), ¾ (0xBE). -/
def pyIsNumeric (c : Char) : Bool :=
  pyIsDigit c || c.toNat == 0xBC || c.toNat == 0xBD || c.toNat == 0xBE

/-- Word character of the tengwar tokenizer's first alternative `[^\W_]`:
Python `\w` matches alphanumerics — a letter or any character with the
digit or numeric property — plus the underscore, which `[^\W_]` then
excludes again. -/
def isWordChar (c : Char) : Bool := pyIsAlpha c || pyIsNumeric c

/-- The character set of the tengwar tokenizer's second regex alternative
`[.,!\?;\"'-_`:<>/\\\[\]\(\){}@#$%^&\*=\+| \n]`.  Note `'-_` is a character
range 0x27–0x5F; the remaining members `! " # $ % & `` { | }` and space
and newline are listed explicitly. -/
def inTengwarSet (c : Char) : Bool :=
  (39 ≤ c.toNat && c.toNat ≤ 95) || c.toNat == 33 || c.toNat == 34 ||
    c.toNat == 35 || c.toNat == 36 || c.toNat == 37 || c.toNat == 38 ||
    c.toNat == 96 || c.toNat == 123 || c.toNat == 124 || c.toNat == 125 ||
    c.toNat == 32 || c.toNat == 10

/-- Word character of the Black Speech tokenizer (`\w`): letter, digit or
numeric character, or underscore. -/
def isWordCharBS (c : Char) : Bool := pyIsAlpha c || pyIsNumeric c || c == '_'

/-! ### Python string primitives on `List Char` -/

/-- Fuelled worker for Python `str.replace(old, new)`: scan left to right,
replacing non-overlapping occurrences of `pat` and resuming after the
inserted replacement.  The fuel bounds the number of scanning steps; it is
always instantiated with the list length, which suffices for `pat ≠ []`. -/
def pyReplaceFuel (pat repl : List Char) : Nat → List Char → List Char
  | 0, l => l
  | _ + 1, [] => []
  | n + 1, c :: r =>
    if pat ≠ [] ∧ pat.isPrefixOf (c :: r) then
      repl ++ pyReplaceFuel pat repl n ((c :: r).drop pat.length)
    else
      c :: pyReplaceFuel pat repl n r

/-- Python `inp.replace(pat, repl)` (all occurrences). -/
def pyReplace (pat repl l : List Char) : List Char :=
  pyReplaceFuel pat repl l.length l

/-- Fuelled worker for Python `str.replace(old, new, count)`. -/
def pyReplaceCountFuel (pat repl : List Char) : Nat → Nat → List Char → List Char
  | 0, _, l => l
  | _ + 1, 0, l => l
  | n + 1, k + 1, l =>
    match l with
    | [] => []
    | c :: r =>
      if pat ≠ [] ∧ pat.isPrefixOf (c :: r) then
        repl ++ pyReplaceCountFuel pat repl n k ((c :: r).drop pat.length)
      else
        c :: pyReplaceCountFuel pat repl n (k + 1) r

/-- Python `inp.replace(pat, repl, count)` (first `count` occurrences). -/
def pyReplaceCount (pat repl : List Char) (count : Nat) (l : List Char) : List Char :=
  pyReplaceCountFuel pat repl l.length count l

/-- Python `pat in inp` substring test. -/
def pyContains (pat : List Char) : List Char → Bool
  | [] => pat.isEmpty
  | c :: r => pat.isPrefixOf (c :: r) || pyContains pat r

/-- Python `str.strip()` (only emptiness of the result is ever used). -/
def pyStrip (l : List Char) : List Char :=
  ((l.dropWhile pyIsSpace).reverse.dropWhile pyIsSpace).reverse

/-- The in-place single-position rewriting loops of `tengwar_word`
(`for i in range(len(inp) - 1): ... inp = inp[:i] + X + inp[i+1:]`):
each pass rewrites position `i` as a function of the original characters at
`i` and `i + 1`, leaving the last character untouched. -/
def pairMap (f : Char → Char → Char) : List Char → List Char
  | [] => []
  | [c] => [c]
  | a :: b :: r => f a b :: pairMap f (b :: r)

/-! ### Tokenizers -/

/-- Fuelled worker for the tengwar tokenizer
`re.findall(r"[^\W_]+|[...]", inp)`: maximal word-character runs, single
characters of the recognized punctuation set, all other characters dropped. -/
def tokenizeFuel : Nat → List Char → List (List Char)
  | 0, _ => []
  | _ + 1, [] => []
  | n + 1, c :: r =>
    if isWordChar c then
      (c :: r.takeWhile isWordChar) :: tokenizeFuel n (r.dropWhile isWordChar)
    else if inTengwarSet c then
      [c] :: tokenizeFuel n r
    else
      tokenizeFuel n r

/-- The tengwar tokenizer of `tengwar_start`. -/
def tokenize (l : List Char) : List (List Char) := tokenizeFuel l.length l

/-- Fuelled worker for the Black Speech tokenizer
`re.findall(r'\b\w+\b|[^\w\s]', inp)`: maximal `\w` runs and single
non-word non-space characters; whitespace is dropped. -/
def tokenizeBSFuel : Nat → List Char → List (List Char)
  | 0, _ => []
  | _ + 1, [] => []
  | n + 1, c :: r =>
    if isWordCharBS c then
      (c :: r.takeWhile isWordCharBS) :: tokenizeBSFuel n (r.dropWhile isWordCharBS)
    else if pyIsSpace c then
      tokenizeBSFuel n r
    else
      [c] :: tokenizeBSFuel n r

/-- The Black Speech tokenizer of `convert_to_black_speech`. -/
def tokenizeBS (l : List Char) : List (List Char) := tokenizeBSFuel l.length l

/-! ### Static tengwar tables -/

/-- `dictzip`: zip two equal-length strings into key/value pairs.  Python
builds a `dict` from them, so a repeated key keeps its **last** value; the
lookups below therefore search the reversed pair list. -/
def dictzip (s1 s2 : List Char) : List (Char × Char) := s1.zip s2

/-- The `consonants` table, `dictzip("tdnrRhpbfvmwsj--lYkg-z-", "125679qwertyisghjlzxn,.")`. -/
def consonantsPairs : List (Char × Char) :=
  dictzip "tdnrRhpbfvmwsj--lYkg-z-".toList "125679qwertyisghjlzxn,.".toList

/-- Lookup in `consonants` (Python dict semantics: last value for the
repeated key `-` wins). -/
def consonant? (c : Char) : Option Char := consonantsPairs.reverse.lookup c

/-- The `doubles` digraph table, as an ordered association list (every key
has length 2; `tengwar_postfix` tries them in this order as prefixes). -/
def doublesList : List (List Char × Char) :=
  [("sh".toList, 'd'), ("zh".toList, 'f'), ("ch".toList, 'a'),
   ("Ch".toList, 'a'), ("ph".toList, 'e'), ("kh".toList, 'c'),
   ("gh".toList, 'v'), ("wh".toList, 'o'), ("ng".toList, 'b'),
   ("rd".toList, 'u'), ("ld".toList, 'm'), ("th".toList, '3'),
   ("TH".toList, '4')]

/-- Digraph lookup on the first two buffer characters.  Every key of
`doublesList` has exactly two characters, so the source's ordered prefix
scan over `doubles` (`postfix[:len(double)] == double`) is exactly the
first table entry whose key equals the two leading characters. -/
def double? (c1 c2 : Char) : Option Char :=
  (doublesList.find? fun e => e.1 == [c1, c2]).map (·.2)

/-- The `vowel_series` table: each vowel letter maps to its 4-glyph series
(`"y"` maps to `"\xd8\xd9\xda\xdb"`). -/
def vowelSeriesPairs : List (Char × List Char) :=
  [('a', "#EDC".toList), ('e', "$RFV".toList), ('i', "%TGB".toList),
   ('o', "^YHN".toList), ('u', "&UJM".toList), ('y', "ØÙÚÛ".toList)]

/-- `nxt in vowel_series.keys()`. -/
def isVowelKey (c : Char) : Bool := (vowelSeriesPairs.lookup c).isSome

/-- `vowel_series[v][i]` (as an `Option`, `none` = Python `KeyError` /
`IndexError`). -/
def vowelGlyph (v : Char) (i : Nat) : Option Char :=
  (vowelSeriesPairs.lookup v).bind fun series => series.get? i

/-- The `vowels` glyph string (output-side vowel glyphs). -/
def vowels : List Char := "#EDC$RFV%TGB^YHN&UJM".toList

/-- The `vowels_for_consonants` table: glyph → vowel-series index. -/
def vfcPairs : List (Char × Nat) :=
  [(carrierChar, 3), ('~', 3), ('1', 1), ('q', 1), ('a', 2), ('z', 2),
   ('2', 0), ('w', 0), ('s', 0), ('x', 0), ('3', 2), ('e', 2), ('d', 1),
   ('c', 1), ('4', 0), ('r', 0), ('f', 0), ('v', 0), ('5', 0), ('t', 0),
   ('g', 0), ('b', 0), ('6', 1), ('y', 1), ('h', 2), ('n', 2), ('7', 2),
   ('u', 2), ('j', 0), ('m', 0), ('i', 2), (',', 2), ('9', 3), ('o', 0),
   ('l', 2), ('.', 2)]

/-- `vowels_for_consonants[g]` (as an `Option`, `none` = `KeyError`). -/
def vfc? (g : Char) : Option Nat := vfcPairs.lookup g

/-- The `punctuation` glyph table (single-character keys, glyph-string
values).  The two brace keys are written via `Char.ofNat`. -/
def punctuationPairs : List (Char × List Char) :=
  [('.', "-".toList), (',', [Char.ofNat 0xB7]), ('!', [Char.ofNat 0xC1]),
   ('?', [Char.ofNat 0xC0]), (';', [Char.ofNat 0xC3]), ('"', [Char.ofNat 0xBB]),
   (apostChar, [Char.ofNat 0xB2]), ('_', [Char.ofNat 0xB7]), ('-', [Char.ofNat 0xB7]),
   (carrierChar, [Char.ofNat 0xB1]), (':', "-".toList), ('/', [Char.ofNat 0x203A]),
   ('\\', [Char.ofNat 0x203A]), ('<', "Œ".toList), ('>', "œ".toList),
   ('[', "Œ".toList), (']', "œ".toList), (lbraceChar, "Œ".toList),
   (rbraceChar, "œ".toList), ('(', "Œ".toList), (')', "œ".toList),
   ('@', "1E".toList), ('#', "9dE1x#".toList), ('$', ['k', Char.ofNat 0xA1]),
   ('%', "q6R85$1".toList), ('^', "z7D1R".toList), ('&', "5#2".toList),
   ('*', [Char.ofNat 0x2C6]), ('=', [Char.ofNat 0xAC]),
   ('+', [carrierChar, ' ', Char.ofNat 0xB0]), ('|', [Char.ofNat 0xBD]),
   (' ', " ".toList), ('\n', "\n".toList),
   ('\t', [Char.ofNat 0xB7, '-', Char.ofNat 0xB7])]

/-- `item in punctuation.keys()` and the corresponding value, for a token.
Every key is a single character, so only single-character tokens match. -/
def punctuationLookup : List Char → Option (List Char)
  | [c] => punctuationPairs.lookup c
  | _ => none

/-! ### The th-voicing word lists and `replace_th` -/

/-- `voiced_th_prefices` (replace only the first instance of th). -/
def voiced_th_prefices : List (List Char) :=
  ["their".toList, "these".toList, "those".toList, "although".toList,
   "them".toList, "thine".toList, "thy".toList, "thou".toList, "there".toList]

/-- `voiced_th_special_prefices` (replace only the second instance of th). -/
def voiced_th_special_prefices : List (List Char) := ["thither".toList]

/-- `voiced_th_solo_prefices` (must equal the whole token). -/
def voiced_th_solo_prefices : List (List Char) :=
  ["that".toList, "this".toList, "than".toList, "they".toList,
   "thee".toList, "though".toList]

/-- `voiced_th_always_safe` (substring containment marks the occurrence). -/
def voiced_th_always_safe : List (List Char) :=
  ["feather".toList, "together".toList, "bathing".toList, "bathe".toList,
   "father".toList, "mother".toList, "clothing".toList, "clothe".toList,
   "brother".toList, "weather".toList, "either".toList, "gather".toList,
   "other".toList, "another".toList, "worthy".toList, "rather".toList,
   "soothing".toList, "soothe".toList, "smooth".toList, "leather".toList,
   "tether".toList, "breathe".toList, "breathing".toList, "lathe".toList,
   "seethe".toList, "seething".toList, "scathe".toList, "scathing".toList,
   "teethe".toList, "teething".toList, "loath".toList, "loathing".toList,
   "neither".toList, "thence".toList, "rhythm".toList, "slither".toList,
   "southern".toList, "bother".toList, "altogether".toList, "lather".toList,
   "hither".toList]

/-- `x.replace("th", "TH")` applied to a word list entry. -/
def markTH (x : List Char) : List Char := pyReplace "th".toList "TH".toList x

/-- `replace_th`: the digraph-voicing pass, four ordered loops over the
word lists (always-safe containment, solo equality, prefix match, and the
special double-prefix rule `x.replace("th","TH",2).replace("TH","th",1)`). -/
def replace_th (inp0 : List Char) : List Char :=
  let inp1 := voiced_th_always_safe.foldl
    (fun i x => if pyContains x i then pyReplace x (markTH x) i else i) inp0
  let inp2 := voiced_th_solo_prefices.foldl
    (fun i x => if x = i then pyReplace "th".toList "TH".toList i else i) inp1
  let inp3 := voiced_th_prefices.foldl
    (fun i x => if x.isPrefixOf i then pyReplace x (markTH x) i else i) inp2
  voiced_th_special_prefices.foldl
    (fun i x =>
      if x.isPrefixOf i then
        pyReplace x
          (pyReplaceCount "TH".toList "th".toList 1
            (pyReplaceCount "th".toList "TH".toList 2 x)) i
      else i) inp3

/-! ### The remaining preprocessing passes of `tengwar_word` -/

/-- One step of the hard/soft c and g loop: position `i` is rewritten from
the original characters at `i` and `i + 1`. -/
def cgChar (cur nxt : Char) : Char :=
  if cur = 'g' then (if nxt = 'e' ∨ nxt = 'i' ∨ nxt = 'y' then 'j' else 'g')
  else if cur = 'c' then
    (if nxt = 'e' ∨ nxt = 'i' ∨ nxt = 'y' then 's'
     else if nxt = 'h' then 'C' else 'k')
  else cur

/-- `if inp[-1] == "c": inp = inp[:-1] + "k"`. -/
def lastCFix : List Char → List Char
  | [] => []
  | [c] => if c = 'c' then ['k'] else [c]
  | a :: b :: r => a :: lastCFix (b :: r)

/-- One step of the pre-vowel r loop. -/
def rChar (cur nxt : Char) : Char :=
  if cur = 'r' ∧ "aeiouy".toList.contains nxt then 'R' else cur

/-- One step of the consonantal-y loop. -/
def yChar (cur nxt : Char) : Char :=
  if cur = 'y' ∧ "aeiou".toList.contains nxt then 'Y' else cur

/-- One step of the fancy S / fancy Z output loop (both `if`s of one
iteration; if the first fires the second cannot). -/
def szChar (cur nxt : Char) : Char :=
  if cur = 'i' ∧ ¬ vowels.contains nxt then '8'
  else if cur = ',' ∧ ¬ vowels.contains nxt then 'k'
  else cur

/-- Trailing-s detachment: `(shortened buffer, has_trailing_s)`. -/
def detachS (l : List Char) : List Char × Bool :=
  if l ≠ [] ∧ l.getLast? = some 's' then
    if 1 < l.length ∧ (l.dropLast.getLast?.all fun c => ¬ "aiou".toList.contains c) then
      (l.dropLast, true)
    else (l, false)
  else (l, false)

/-- Trailing-e detachment: `(shortened buffer, has_trailing_e)`. -/
def detachE (l : List Char) : List Char × Bool :=
  if 3 ≤ l.length ∧ l.getLast? = some 'e' ∧
      (l.dropLast.getLast?.all fun c => ¬ "aeiouy".toList.contains c) then
    (l.dropLast, true)
  else (l, false)

/-- The four-bucket suffix-s glyph choice of `tengwar_word`
(`output[-1] in "7um8k"` → Å, `"qwertyo"` → Æ, `"l9"` → ¥, default `_`). -/
def sBucket (c : Char) : Char :=
  if "7um8k".toList.contains c then Char.ofNat 0xC5
  else if "qwertyo".toList.contains c then Char.ofNat 0xC6
  else if "l9".toList.contains c then Char.ofNat 0xA5
  else '_'

/-! ### The glyph transducer (`tengwar_postfix` in the source) -/

/-- The glyph transducer `tengwar_postfix`, embedded as `tengwar_emit`
(`none` models an uncaught Python exception: `NotImplementedError` for an
unmapped letter, `KeyError` for a glyph missing from
`vowels_for_consonants`, `IndexError` for `rest[0]` on an empty string).
Branch order follows the source: the non-letter filler, the digraph scan,
the vowel case (carrier when at word end or before another vowel,
otherwise the series glyph indexed by the class of the first glyph of the
transduced remainder, inserted after that glyph), the consonant case, the
special `x` case, and otherwise the error. -/
def tengwar_emit : List Char → Option (List Char)
  | [] => some []
  | [c] =>
    if ¬ pyIsAlpha c then some [carrierChar]
    else if isVowelKey c then
      ((vfc? carrierChar).bind fun i =>
        (vowelGlyph c i).map fun va => [carrierChar, va])
    else
      match consonant? c with
      | some g => some [g]
      | none =>
        if c = 'x' then some ['z', Char.ofNat 0xE6] else none
  | c :: c2 :: r2 =>
    if ¬ pyIsAlpha c then (tengwar_emit (c2 :: r2)).map (fun o => carrierChar :: o)
    else
      match double? c c2 with
      | some g => (tengwar_emit r2).map (fun o => g :: o)
      | none =>
        if isVowelKey c then
          if isVowelKey c2 then
            ((vfc? carrierChar).bind fun i =>
              (vowelGlyph c i).bind fun va =>
                (tengwar_emit (c2 :: r2)).map fun o => carrierChar :: va :: o)
          else
            ((tengwar_emit (c2 :: r2)).bind fun o =>
              match o with
              | [] => none
              | g0 :: t =>
                (vfc? g0).bind fun i =>
                  (vowelGlyph c i).map fun va => g0 :: va :: t)
        else
          match consonant? c with
          | some g => (tengwar_emit (c2 :: r2)).map (fun o => g :: o)
          | none =>
            if c = 'x' then
              (tengwar_emit (c2 :: r2)).map (fun o => 'z' :: Char.ofNat 0xE6 :: o)
            else none

/-! ### `tengwar_word`, `tengwar_token`, `tengwar_start` -/

/-- The preprocessing chain of `tengwar_word` after the `of`/`the`
shortcuts and before suffix detachment: lowercasing, `replace_th`, the
hard/soft c and g pass with the final-c fix, the pre-vowel r pass, the
`q → k` fold, and the consonantal y pass. -/
def tengwar_preprocess (inp0 : List Char) : List Char :=
  pairMap yChar
    (pyReplace "q".toList "k".toList
      (pairMap rChar (lastCFix (pairMap cgChar (replace_th (inp0.map pyLower))))))

/-- Whether `tengwar_word` detaches a trailing s from this token. -/
def sDetached (inp0 : List Char) : Bool := (detachS (tengwar_preprocess inp0)).2

/-- `tengwar_word`: lowercase, the `of`/`the` shortcuts, the preprocessing
chain, suffix detachment, transduction (a lone carrier for an empty
buffer), the fancy S/Z output pass, and suffix reattachment (`O` for e,
the `sBucket` glyph for s, chosen by the final output glyph). -/
def tengwar_word (inp0 : List Char) : Option (List Char) :=
  let inp := inp0.map pyLower
  if inp = [] then some inp
  else if inp = "of".toList then some ['W']
  else if inp = "the".toList then some ['@']
  else
    let s1 := detachS (tengwar_preprocess inp0)
    let s2 := detachE s1.1
    let core := if s2.1 = [] then some [carrierChar] else tengwar_emit s2.1
    core.bind fun out0 =>
      let out1 := pairMap szChar out0
      let out2 := if s2.2 then out1 ++ ['O'] else out1
      if s1.2 then
        match out2.getLast? with
        | some c => some (out2 ++ [sBucket c])
        | none => none
      else some out2

/-- `tengwar_number`: the fixed five-carrier placeholder, regardless of
the numeric value (base-12 numerals are an unimplemented stub). -/
def tengwar_number (_ : Nat) : List Char :=
  [carrierChar, carrierChar, carrierChar, carrierChar, carrierChar]

/-- `int(item)` for a digit token. -/
def natOfDigits (l : List Char) : Nat :=
  l.foldl (fun a c => 10 * a + (c.toNat - 48)) 0

/-- Python `item.isdigit()` on the token (`False` for the empty string):
every character has the digit property, superscripts included. -/
def pyIsDigitTok (l : List Char) : Bool := ¬ l.isEmpty && l.all pyIsDigit

/-- The digit tokens on which Python `int(item)` succeeds: within the
repertoire `int` accepts exactly the ASCII decimal digits (a superscript
digit passes `isdigit` but makes `int` raise `ValueError`). -/
def pyIsDigitStr (l : List Char) : Bool := ¬ l.isEmpty && l.all Char.isDigit

/-- `tengwar_token`: punctuation lookup, then the digit branch — where
`int(item)` raises `ValueError` on a superscript digit (`none`) and
otherwise the fixed placeholder is returned — then apostrophe stripping
and `tengwar_word`. -/
def tengwar_token (item : List Char) : Option (List Char) :=
  match punctuationLookup item with
  | some g => some g
  | none =>
    if pyIsDigitTok item then
      if pyIsDigitStr item then some (tengwar_number (natOfDigits item))
      else none
    else tengwar_word (pyReplace [apostChar] [] item)

/-- `tengwar_start` (= `convert_tengwar`): tokenize and concatenate the
token outputs; an exception in any token aborts the whole call (`none`). -/
def tengwar_start (inp : List Char) : Option (List Char) :=
  (tokenize inp).foldlM (fun acc item => (tengwar_token item).map (acc ++ ·)) []

/-! ### The Black Speech pipeline -/

/-- `black_speech_dictionary` as an association list in source order.
Python dict literals keep the **last** value of a repeated key (`lose`,
`destroy`, `break`, `burn`, `clean`, `dirty`, `light` repeat), so lookups
search the reversed list. -/
def black_speech_dictionary : List (String × String) :=
  [("one", "ash"), ("ring", "nazg"), ("to", ""), ("rule", "gimbatul"),
   ("them", "agh"), ("all", "burzum-ishi"), ("and", "agh"), ("in", ""),
   ("the", ""), ("of", ""), ("darkness", "burzum"), ("bind", "krimpatul"),
   ("lord", "uzbad"), ("master", "uzbad"), ("king", "uzbad"),
   ("fire", "gabil"), ("flame", "gabil"), ("shadow", "glob"),
   ("dark", "burzum"), ("black", "morn"), ("death", "gûl"),
   ("evil", "gûl"), ("mountain", "gundu"), ("tower", "barad"),
   ("fortress", "barad"), ("iron", "ang"), ("steel", "ang"),
   ("sword", "gurth"), ("blade", "gurth"), ("hand", "gabil"),
   ("eye", "lugburz"), ("power", "gash"), ("strength", "gash"),
   ("great", "uruk"), ("mighty", "uruk"), ("servant", "olog"),
   ("slave", "snaga"), ("come", "gû"), ("go", "gû"), ("bring", "thurkh"),
   ("take", "thurkh"), ("kill", "agh"), ("destroy", "agh"),
   ("burn", "gabil"), ("break", "krith"), ("mine", "khaz"),
   ("gold", "khaz"), ("treasure", "khaz"), ("doom", "dûm"),
   ("fate", "dûm"), ("war", "gabil"), ("battle", "gabil"),
   ("blood", "gû"), ("pain", "gash"), ("fear", "gûl"),
   ("terror", "gûl"), ("hate", "goth"), ("anger", "goth"),
   ("wrath", "goth"), ("sorrow", "nuin"), ("grief", "nuin"),
   ("stone", "khaz"), ("earth", "khaz"), ("ground", "khaz"),
   ("sky", "menel"), ("star", "gil"), ("moon", "ithil"),
   ("sun", "anor"), ("light", "gal"), ("water", "nen"),
   ("river", "nen"), ("sea", "gaer"), ("wind", "gwaih"),
   ("storm", "gwaih"), ("thunder", "gabil"), ("lightning", "gabil"),
   ("cold", "ring"), ("ice", "ring"), ("snow", "ring"),
   ("hot", "gabil"), ("warm", "gabil"), ("big", "uruk"),
   ("large", "uruk"), ("huge", "uruk"), ("small", "snaga"),
   ("little", "snaga"), ("tiny", "snaga"), ("good", "gâl"),
   ("bad", "gûl"), ("beautiful", "gâl"), ("ugly", "goth"),
   ("strong", "gash"), ("weak", "snaga"), ("fast", "thurkh"),
   ("slow", "glob"), ("high", "barad"), ("low", "glob"),
   ("far", "ungol"), ("near", "gû"), ("old", "iaur"),
   ("new", "shin"), ("young", "shin"), ("dead", "gûl"),
   ("alive", "cuio"), ("born", "no"), ("die", "gûl"),
   ("live", "cuio"), ("eat", "gor"), ("drink", "sûl"),
   ("sleep", "lûth"), ("wake", "daw"), ("speak", "lam"),
   ("hear", "lasta"), ("see", "tîr"), ("know", "ista"),
   ("think", "saed"), ("remember", "min"), ("forget", "delu"),
   ("love", "mel"), ("like", "mel"), ("want", "min"),
   ("need", "bane"), ("have", "har"), ("give", "anno"),
   ("receive", "goth"), ("find", "hir"), ("lose", "delu"),
   ("win", "tuv"), ("lose", "delu"), ("begin", "edra"),
   ("end", "teith"), ("stop", "dar"), ("continue", "minno"),
   ("change", "wend"), ("stay", "dar"), ("move", "minno"),
   ("run", "thurkh"), ("walk", "minno"), ("fly", "gwaih"),
   ("fall", "dant"), ("rise", "orch"), ("climb", "orch"),
   ("jump", "cab"), ("swim", "luin"), ("work", "bane"),
   ("rest", "lûth"), ("play", "telu"), ("fight", "gabil"),
   ("attack", "dagr"), ("defend", "thang"), ("escape", "rhosg"),
   ("hide", "thurin"), ("show", "tol"), ("open", "edra"),
   ("close", "thar"), ("build", "thang"), ("destroy", "agh"),
   ("create", "caro"), ("make", "caro"), ("repair", "aeg"),
   ("break", "krith"), ("cut", "risk"), ("join", "gwedh"),
   ("separate", "palan"), ("mix", "gwaed"), ("clean", "glan"),
   ("dirty", "goth"), ("wash", "luin"), ("wear", "gwann"),
   ("remove", "eitha"), ("put", "gwaed"), ("place", "gwaed"),
   ("turn", "hwinion"), ("push", "thaur"), ("pull", "gwedh"),
   ("lift", "orgon"), ("drop", "dant"), ("throw", "hab"),
   ("catch", "rap"), ("hold", "gabil"), ("release", "leithia"),
   ("touch", "lav"), ("hit", "dagr"), ("kick", "dag"),
   ("bite", "nasg"), ("scratch", "rasc"), ("burn", "gabil"),
   ("freeze", "ring"), ("melt", "thaw"), ("boil", "gabil"),
   ("cook", "gabil"), ("raw", "glass"), ("ripe", "beren"),
   ("rotten", "goth"), ("sharp", "maeg"), ("dull", "thind"),
   ("smooth", "balan"), ("rough", "gaern"), ("hard", "sarn"),
   ("soft", "lind"), ("heavy", "luin"), ("light", "gal"),
   ("thick", "tiugh"), ("thin", "nim"), ("wide", "palan"),
   ("narrow", "aeg"), ("deep", "nunn"), ("shallow", "taw"),
   ("empty", "lhaw"), ("full", "bell"), ("wet", "nîn"),
   ("dry", "rû"), ("clean", "glan"), ("dirty", "gorth")]

/-- `token in black_speech_dictionary` lookup with Python dict semantics
(the last binding of a repeated key wins). -/
def bsLookup (t : List Char) : Option (List Char) :=
  (black_speech_dictionary.reverse.find? fun e => e.1.toList == t).map
    fun e => e.2.toList

/-- `black_speech_phonetics` in source (dict-iteration) order. -/
def black_speech_phonetics : List (String × String) :=
  [("c", "k"), ("soft_g", "gh"), ("th", "thr"), ("ph", "f"),
   ("ch", "kh"), ("sh", "shr"), ("j", "zh"), ("qu", "kw"),
   ("x", "ks"), ("tion", "zhon"), ("sion", "zhon")]

/-- `re.sub(r'g(?=[eiy])', 'gh', word)`: each `g` followed by `e`, `i` or
`y` becomes `gh` (the lookahead character is not consumed). -/
def softG : List Char → List Char
  | 'g' :: c :: r =>
    if c = 'e' ∨ c = 'i' ∨ c = 'y' then 'g' :: 'h' :: softG (c :: r)
    else 'g' :: softG (c :: r)
  | c :: r => c :: softG r
  | [] => []

/-- `re.sub(r'([aeiou])\1', r'\1', word)`: left-to-right non-overlapping
reduction of a doubled vowel to a single one. -/
def reduceDV : List Char → List Char
  | a :: b :: r =>
    if "aeiou".toList.contains a ∧ a = b then a :: reduceDV r
    else a :: reduceDV (b :: r)
  | l => l

/-- `re.sub(pat + '$', repl, word)` for a literal pattern: rewrite the
suffix when present. -/
def subEnd (pat repl w : List Char) : List Char :=
  if pat.isSuffixOf w then w.take (w.length - pat.length) ++ repl else w

/-- `apply_black_speech_phonetics`: the ordered substitution chain for a
dictionary miss.  Note the `soft_g` entry's `if pattern in word` test
checks for the literal substring `"soft_g"`. -/
def applyPhonetics (w0 : List Char) : List Char :=
  let w := black_speech_phonetics.foldl
    (fun w e =>
      if pyContains e.1.toList w then
        if e.1 = "soft_g" then softG w else pyReplace e.1.toList e.2.toList w
      else w) w0
  let w := pyReplace "v".toList "f".toList w
  let w := pyReplace "w".toList "v".toList w
  let w := pyReplace "y".toList "i".toList w
  let w := reduceDV w
  let w := subEnd "s".toList "z".toList w
  let w := subEnd "ed".toList "ad".toList w
  let w := subEnd "ing".toList "ugh".toList w
  let w := pyReplace "oo".toList "û".toList w
  let w := pyReplace "ee".toList "î".toList w
  let w := pyReplace "aa".toList "â".toList w
  w

/-- Python `token.isalpha()` (`False` for the empty string). -/
def pyIsAlphaStr (l : List Char) : Bool := ¬ l.isEmpty && l.all pyIsAlpha

/-- The per-token step of `convert_to_black_speech`: alphabetic tokens go
through the dictionary (an empty mapping elides the token, `none`), then
the phonetic fallback; other tokens pass through unchanged. -/
def bsToken (t : List Char) : Option (List Char) :=
  if pyIsAlphaStr t then
    match bsLookup t with
    | some v => if v = [] then none else some v
    | none => some (applyPhonetics t)
  else some t

/-- `convert_to_black_speech` (= `convert_black_speech`): whitespace-only
input is returned unchanged; otherwise tokenize the lowercased input, map
`bsToken` (dropping elided tokens) and join with single spaces. -/
def convert_to_black_speech (inp : List Char) : List Char :=
  if (pyStrip inp).isEmpty then inp
  else
    let tokens := tokenizeBS (inp.map pyLower)
    List.intercalate [' '] (tokens.filterMap bsToken)

/-! ### Claim-support definitions -/

/-- All (possibly marked) th-cluster occurrences of a buffer with their
positions: `(i, false)` for an unvoiced `th` starting at `i`, `(i, true)`
for a voiced `TH`. -/
def thMarks : Nat → List Char → List (Nat × Bool)
  | _, [] => []
  | _, [_] => []
  | i, a :: b :: r =>
    (if a = 't' ∧ b = 'h' then [(i, false)]
     else if a = 'T' ∧ b = 'H' then [(i, true)] else []) ++ thMarks (i + 1) (b :: r)

/-- Positions of all th clusters (voiced or not). -/
def thPositions (l : List Char) : List Nat := (thMarks 0 l).map Prod.fst

/-- Positions of the voiced (marked) th clusters. -/
def markedPos (l : List Char) : List Nat :=
  (thMarks 0 l).filterMap fun e => if e.2 then some e.1 else none

/-- Positions of the unvoiced (unmarked) th clusters. -/
def unmarkedPos (l : List Char) : List Nat :=
  (thMarks 0 l).filterMap fun e => if e.2 then none else some e.1

/-! ### Generic helper lemmas -/

theorem lookup_mem {α β : Type} [BEq α] [LawfulBEq α] :
    ∀ (l : List (α × β)) (a : α) (b : β), l.lookup a = some b → (a, b) ∈ l := by
  intro l a b h
  induction l with
  | nil => simp [List.lookup] at h
  | cons p l ih =>
    obtain ⟨k, v⟩ := p
    simp only [List.lookup] at h
    cases hk : (a == k) with
    | true =>
      rw [hk] at h
      simp only [Option.some.injEq] at h
      have hka : a = k := eq_of_beq hk
      subst hka
      subst h
      exact List.mem_cons_self _ _
    | false =>
      rw [hk] at h
      exact List.mem_cons_of_mem _ (ih h)

/-- Every glyph produced by the digraph table has a vowel-series class. -/
theorem double_vfc {a b g : Char} (h : double? a b = some g) :
    (vfc? g).isSome = true := by
  unfold double? at h
  rw [Option.map_eq_some'] at h
  obtain ⟨e, he, rfl⟩ := h
  have hm := List.mem_of_find?_eq_some he
  exact (by decide : ∀ e ∈ doublesList, (vfc? e.2).isSome = true) _ hm

/-- Every glyph produced by the consonant table has a vowel-series class. -/
theorem consonant_vfc {c g : Char} (h : consonant? c = some g) :
    (vfc? g).isSome = true := by
  have hm := lookup_mem _ _ _ h
  rw [List.mem_reverse] at hm
  have hall : ∀ p ∈ consonantsPairs, (vfc? p.2).isSome = true := by decide
  exact hall _ hm

/-- The transducer's output on a nonempty buffer is nonempty and its first
glyph is always a key of `vowels_for_consonants`. -/
theorem emit_head_vfc :
    ∀ l o, tengwar_emit l = some o → l ≠ [] →
      ∃ g t, o = g :: t ∧ (vfc? g).isSome = true := by
  intro l
  induction l using tengwar_emit.induct with
  | case1 => exact fun o _ hne => absurd rfl hne
  | case2 c hna =>
    intro o h _
    unfold tengwar_emit at h
    rw [if_pos hna] at h
    simp only [Option.some.injEq] at h
    exact ⟨carrierChar, [], h.symm, rfl⟩
  | case3 c hna hv =>
    intro o h _
    unfold tengwar_emit at h
    rw [if_neg hna, if_pos hv] at h
    rw [show vfc? carrierChar = some 3 from rfl] at h
    simp only [Option.some_bind, Option.map_eq_some'] at h
    obtain ⟨va, _, hva⟩ := h
    exact ⟨carrierChar, [va], hva.symm, rfl⟩
  | case4 c hna hv g hc =>
    intro o h _
    unfold tengwar_emit at h
    rw [if_neg hna, if_neg hv, hc] at h
    simp only [Option.some.injEq] at h
    exact ⟨g, [], h.symm, consonant_vfc hc⟩
  | case5 hna hv hc =>
    intro o h _
    unfold tengwar_emit at h
    rw [if_neg hna, if_neg hv, hc, if_pos rfl] at h
    simp only [Option.some.injEq] at h
    exact ⟨'z', [Char.ofNat 0xE6], h.symm, rfl⟩
  | case6 c hna hv hc hx =>
    intro o h _
    unfold tengwar_emit at h
    rw [if_neg hna, if_neg hv, hc, if_neg hx] at h
    exact absurd h (by simp)
  | case7 a b r hna ih =>
    intro o h _
    unfold tengwar_emit at h
    rw [if_pos hna] at h
    simp only [Option.map_eq_some'] at h
    obtain ⟨o', _, ho⟩ := h
    exact ⟨carrierChar, o', ho.symm, rfl⟩
  | case8 a b r hna g hd ih =>
    intro o h _
    unfold tengwar_emit at h
    rw [if_neg hna, hd] at h
    simp only [Option.map_eq_some'] at h
    obtain ⟨o', _, ho⟩ := h
    exact ⟨g, o', ho.symm, double_vfc hd⟩
  | case9 a b r hna hd hva hvb ih =>
    intro o h _
    unfold tengwar_emit at h
    rw [if_neg hna, hd, if_pos hva, if_pos hvb] at h
    rw [show vfc? carrierChar = some 3 from rfl] at h
    simp only [Option.some_bind, Option.bind_eq_some, Option.map_eq_some'] at h
    obtain ⟨va, _, o', _, ho⟩ := h
    exact ⟨carrierChar, va :: o', ho.symm, rfl⟩
  | case10 a b r hna hd hva hvb ih =>
    intro o h _
    unfold tengwar_emit at h
    rw [if_neg hna, hd, if_pos hva, if_neg hvb] at h
    simp only [Option.bind_eq_some] at h
    obtain ⟨o', ho', hm⟩ := h
    obtain ⟨g0, t, rfl, hg0⟩ := ih o' ho' (by simp)
    simp only [Option.bind_eq_some, Option.map_eq_some'] at hm
    obtain ⟨i, _, va, _, ho⟩ := hm
    exact ⟨g0, va :: t, ho.symm, hg0⟩
  | case11 a b r hna hd hva g hc ih =>
    intro o h _
    unfold tengwar_emit at h
    rw [if_neg hna, hd, if_neg hva, hc] at h
    simp only [Option.map_eq_some'] at h
    obtain ⟨o', _, ho⟩ := h
    exact ⟨g, o', ho.symm, consonant_vfc hc⟩
  | case12 b r hna hd hva hc ih =>
    intro o h _
    unfold tengwar_emit at h
    rw [if_neg hna, hd, if_neg hva, hc, if_pos rfl] at h
    simp only [Option.map_eq_some'] at h
    obtain ⟨o', _, ho⟩ := h
    exact ⟨'z', Char.ofNat 0xE6 :: o', ho.symm, rfl⟩
  | case13 a b r hna hd hva hc hx =>
    intro o h _
    unfold tengwar_emit at h
    rw [if_neg hna, hd, if_neg hva, hc, if_neg hx] at h
    exact absurd h (by simp)

/-- The vowel keys are exactly a, e, i, o, u, y. -/
theorem vowelKey_mem {v : Char} (hv : isVowelKey v = true) :
    v ∈ (['a', 'e', 'i', 'o', 'u', 'y'] : List Char) := by
  unfold isVowelKey at hv
  cases hl : vowelSeriesPairs.lookup v with
  | none => rw [hl] at hv; simp at hv
  | some s =>
    have hm := lookup_mem _ _ _ hl
    exact (by decide :
      ∀ p ∈ vowelSeriesPairs, p.1 ∈ (['a', 'e', 'i', 'o', 'u', 'y'] : List Char)) _ hm

/-- No digraph key starts with a vowel letter. -/
theorem double_none_of_vowel {v : Char} (hv : isVowelKey v = true) (c2 : Char) :
    double? v c2 = none := by
  have hvm := vowelKey_mem hv
  unfold double?
  rw [Option.map_eq_none']
  rw [List.find?_eq_none]
  intro e he heq
  have hh : e.1.head? ≠ some v :=
    (by decide : ∀ e ∈ doublesList, ∀ u ∈ (['a', 'e', 'i', 'o', 'u', 'y'] : List Char),
        e.1.head? ≠ some u) e he v hvm
  rw [eq_of_beq heq] at hh
  exact hh rfl

/-- Vowel letters are alphabetic. -/
theorem pyIsAlpha_of_vowelKey {v : Char} (hv : isVowelKey v = true) :
    pyIsAlpha v = true := by
  have hvm := vowelKey_mem hv
  exact (by decide : ∀ u ∈ (['a', 'e', 'i', 'o', 'u', 'y'] : List Char),
    pyIsAlpha u = true) _ hvm

/-- Every class stored in `vowels_for_consonants` is one of 0–3. -/
theorem vfc_lt_four {g : Char} {i : Nat} (h : vfc? g = some i) : i < 4 := by
  have hm := lookup_mem _ _ _ h
  exact (by decide : ∀ p ∈ vfcPairs, p.2 < 4) _ hm

/-- Every vowel series has a glyph at every class 0–3. -/
theorem vowelGlyph_isSome {v : Char} {i : Nat} (hv : isVowelKey v = true)
    (hi : i < 4) : (vowelGlyph v i).isSome = true := by
  have hvm := vowelKey_mem hv
  interval_cases i <;>
    exact (by decide : ∀ u ∈ (['a', 'e', 'i', 'o', 'u', 'y'] : List Char),
      (vowelGlyph u _).isSome = true) _ hvm

/-! ### Claim C1 -/

/-- Claim C1 (amended): in the glyph transducer, for every buffer starting
with a vowel letter: if the vowel is the last character or the next
character is also a vowel letter, the vowel glyph (class 3, the carrier's
class) attaches to the fixed carrier glyph; otherwise the vowel glyph is
selected from the vowel's 4-entry series indexed by the
`vowels_for_consonants` class of the first glyph of the already-transduced
remainder (not by the next letter) and is inserted immediately **after**
that first glyph (the claim's final conjunct said "prefixed onto that
remainder's output", which the code falsifies — see the counterexample). -/
theorem c1_vowel_glyph_selection (v : Char) (rest : List Char)
    (hv : isVowelKey v = true) :
    (rest.head?.all isVowelKey = true →
      ∃ va, vowelGlyph v 3 = some va ∧
        tengwar_emit (v :: rest) = (tengwar_emit rest).map fun o => carrierChar :: va :: o)
    ∧ (∀ d r2, rest = d :: r2 → isVowelKey d = false →
        ∀ o, tengwar_emit rest = some o →
          ∃ g0 t i va, o = g0 :: t ∧ vfc? g0 = some i ∧ vowelGlyph v i = some va ∧
            tengwar_emit (v :: rest) = some (g0 :: va :: t)) := by
  have ha : pyIsAlpha v = true := pyIsAlpha_of_vowelKey hv
  obtain ⟨va3, hva3⟩ :=
    Option.isSome_iff_exists.mp (@vowelGlyph_isSome v 3 hv (by norm_num))
  constructor
  · intro hhead
    refine ⟨va3, hva3, ?_⟩
    cases rest with
    | nil =>
      simp only [tengwar_emit]
      simp [ha, hv, show vfc? carrierChar = some 3 from rfl, hva3]
    | cons d r2 =>
      have hd : isVowelKey d = true := by simpa using hhead
      simp only [tengwar_emit]
      rw [double_none_of_vowel hv d]
      simp [ha, hv, hd, show vfc? carrierChar = some 3 from rfl, hva3]
  · rintro d r2 rfl hd o ho
    obtain ⟨g0, t, rfl, hg0⟩ := emit_head_vfc _ _ ho (by simp)
    obtain ⟨i, hi⟩ := Option.isSome_iff_exists.mp hg0
    obtain ⟨va, hva⟩ :=
      Option.isSome_iff_exists.mp (vowelGlyph_isSome hv (vfc_lt_four hi))
    refine ⟨g0, t, i, va, rfl, hi, hva, ?_⟩
    simp only [tengwar_emit]
    rw [double_none_of_vowel hv d]
    simp [ha, hv, hd, ho, hi, hva]

/-- Claim C1, counterexample to the claim as stated: on the buffer `"an"`
the remainder `"n"` transduces to `"5"`, the vowel glyph `#` is correctly
selected by the class of `5` (class 0), but the transducer's output is
`"5#"` — the vowel glyph is inserted after the remainder's first glyph,
not prefixed onto the remainder's output (`"#5"`). -/
theorem c1_counterexample :
    tengwar_emit ['a', 'n'] = some ['5', '#'] ∧
    tengwar_emit ['n'] = some ['5'] ∧
    vfc? '5' = some 0 ∧ vowelGlyph 'a' 0 = some '#' ∧
    tengwar_emit ['a', 'n'] ≠ some ('#' :: '5' :: []) := by
  refine ⟨by decide, by decide, by decide, by decide, by decide⟩

/-- Claim C1, witness: the amended theorem applied at the concrete vowel
`a` with remainders `['n']` (consonant next: glyph inserted after `5`) and
`[]` (word end: carrier). -/
theorem c1_witness :
    (isVowelKey 'a' = true) ∧
    (∀ d r2, (['n'] : List Char) = d :: r2 → isVowelKey d = false →
        ∀ o, tengwar_emit ['n'] = some o →
          ∃ g0 t i va, o = g0 :: t ∧ vfc? g0 = some i ∧ vowelGlyph 'a' i = some va ∧
            tengwar_emit ('a' :: ['n']) = some (g0 :: va :: t)) ∧
    (([] : List Char).head?.all isVowelKey = true →
      ∃ va, vowelGlyph 'a' 3 = some va ∧
        tengwar_emit ['a'] = (tengwar_emit []).map fun o => carrierChar :: va :: o) :=
  ⟨by decide, (c1_vowel_glyph_selection 'a' ['n'] (by decide)).2,
    (c1_vowel_glyph_selection 'a' [] (by decide)).1⟩

/-! ### Claim C2 -/

/-- Claim C2, counterexample to the claim as stated: the word token
`thitherhither` begins with `thither` (the sole member of the
special-double-prefix list) and its th clusters sit at positions 0, 3, 9,
so the claim demands that only the second cluster (position 3) be marked
voiced.  But the always-safe word `hither` occurs twice as a substring and
`replace_th` marks both, voicing positions 3 **and** 9. -/
theorem c2_counterexample :
    "thither".toList.isPrefixOf "thitherhither".toList = true ∧
    thPositions "thitherhither".toList = [0, 3, 9] ∧
    replace_th "thitherhither".toList = "thiTHerhiTHer".toList ∧
    markedPos (replace_th "thitherhither".toList) = [3, 9] ∧
    markedPos (replace_th "thitherhither".toList) ≠ [3] := by
  refine ⟨by decide, by decide, by decide, by decide, by decide⟩

/-- Claim C2 (amended): for the word token `thither` itself — the sole
member of the special-double-prefix voicing list — the digraph-voicing
pass `replace_th` marks exactly the second occurrence of the th cluster
(position 3) as voiced and leaves the first occurrence (position 0)
unvoiced, with no other occurrence marked.  (The marking is in fact
produced by the always-safe containment rule for `hither`, which fires
first; for longer tokens beginning with `thither` the guarantee fails,
see the counterexample.) -/
theorem c2_special_double_voicing :
    replace_th "thither".toList = "thiTHer".toList ∧
    thPositions "thither".toList = [0, 3] ∧
    markedPos (replace_th "thither".toList) = [3] ∧
    unmarkedPos (replace_th "thither".toList) = [0] := by
  refine ⟨by decide, by decide, by decide, by decide⟩

/-! ### Claim C8 -/

/-- Claim C8 (confirmed): every token consisting entirely of digits is
transliterated to the same fixed five-carrier placeholder string,
regardless of the digit values and the run length. -/
theorem c8_digit_placeholder (t : List Char) (h : pyIsDigitStr t = true) :
    tengwar_token t =
      some [carrierChar, carrierChar, carrierChar, carrierChar, carrierChar] := by
  have hne : t ≠ [] := by
    intro heq
    rw [heq] at h
    simp [pyIsDigitStr] at h
  have hall : ∀ c ∈ t, c.isDigit = true := by
    intro c hc
    unfold pyIsDigitStr at h
    simp only [Bool.and_eq_true, List.all_eq_true] at h
    exact h.2 c hc
  have hpunct : punctuationLookup t = none := by
    cases t with
    | nil => rfl
    | cons c r =>
      cases r with
      | nil =>
        show punctuationPairs.lookup c = none
        cases hl : punctuationPairs.lookup c with
        | none => rfl
        | some v =>
          have hm := lookup_mem _ _ _ hl
          have := (by decide : ∀ p ∈ punctuationPairs, p.1.isDigit = false) _ hm
          have hd := hall c (by simp)
          rw [this] at hd
          exact absurd hd (by simp)
      | cons d r2 => rfl
  have htok : pyIsDigitTok t = true := by
    unfold pyIsDigitTok
    unfold pyIsDigitStr at h
    simp only [Bool.and_eq_true, List.all_eq_true] at h ⊢
    exact ⟨h.1, fun c hc => by simp [pyIsDigit, h.2 c hc]⟩
  unfold tengwar_token
  rw [hpunct, if_pos htok, if_pos h]
  rfl

/-- Claim C8, witness: the digit token `"7"`. -/
theorem c8_witness :
    pyIsDigitStr "7".toList = true ∧
    tengwar_token "7".toList =
      some [carrierChar, carrierChar, carrierChar, carrierChar, carrierChar] :=
  ⟨by decide, c8_digit_placeholder "7".toList (by decide)⟩

/-! ### Claim C6 -/

/-- Claim C6 (confirmed): in conlang mode, an alphabetic token with a
dictionary entry yields exactly the mapped value — the phonetic fallback
(`applyPhonetics`) does not appear in its output — and an entry mapped to
the empty string contributes no output token at all (`none`, dropped by
the `filterMap` before the single-space join, so no placeholder and no
extra space).  Concretely, `convert_to_black_speech` on
"one ring to rule them all" yields the five non-elided mapped words
space-joined in original order ("to" maps to the empty string and is
elided). -/
theorem c6_dictionary_precedence :
    (∀ t v, pyIsAlphaStr t = true → bsLookup t = some v →
      bsToken t = if v = [] then none else some v) ∧
    convert_to_black_speech "one ring to rule them all".toList =
      "ash nazg gimbatul agh burzum-ishi".toList := by
  constructor
  · intro t v h1 h2
    unfold bsToken
    rw [if_pos h1, h2]
  · decide

/-- Claim C6, witness: the theorem applied at the dictionary hits `to`
(empty mapping, elided) and `ring` (non-empty mapping). -/
theorem c6_witness :
    pyIsAlphaStr "to".toList = true ∧ bsLookup "to".toList = some [] ∧
    bsToken "to".toList = none ∧
    bsLookup "ring".toList = some "nazg".toList ∧
    bsToken "ring".toList = some "nazg".toList := by
  refine ⟨by decide, by decide, ?_, by decide, ?_⟩
  · have h := c6_dictionary_precedence.1 "to".toList [] (by decide) (by decide)
    simpa using h
  · have h := c6_dictionary_precedence.1 "ring".toList "nazg".toList
      (by decide) (by decide)
    simpa using h

/-! ### Claim C7 -/

/-- Claim C7, counterexample to the claim as stated: the whitespace-only
input `"\t"` is **not** returned unchanged by script transliteration — the
tab character is not in the tokenizer's recognized set, so it is dropped
and `tengwar_start "\t"` returns the empty string. -/
theorem c7_counterexample :
    tengwar_start "\t".toList = some [] ∧
    (some ([] : List Char)) ≠ some "\t".toList := by
  exact ⟨by decide, by decide⟩

theorem tokenizeFuel_space :
    ∀ (n : Nat) (s : List Char), s.length ≤ n → (∀ c ∈ s, c = ' ' ∨ c = '\n') →
      tokenizeFuel n s = s.map (fun c => [c]) := by
  intro n
  induction n with
  | zero =>
    intro s hs _
    interval_cases hl : s.length
    · rw [List.length_eq_zero] at hl
      subst hl
      rfl
  | succ n ih =>
    intro s hs hsp
    cases s with
    | nil => rfl
    | cons c r =>
      have hc := hsp c (by simp)
      have hw : isWordChar c = false := by rcases hc with rfl | rfl <;> decide
      have ht : inTengwarSet c = true := by rcases hc with rfl | rfl <;> decide
      show tokenizeFuel (n + 1) (c :: r) = _
      unfold tokenizeFuel
      rw [if_neg (by simp [hw]), if_pos ht,
        ih r (by simpa using Nat.lt_succ_iff.mp (Nat.lt_of_lt_of_le (by simp) hs))
          (fun d hd => hsp d (by simp [hd]))]
      rfl

theorem foldlM_space_tokens :
    ∀ (s acc : List Char), (∀ c ∈ s, c = ' ' ∨ c = '\n') →
      List.foldlM (fun acc item => (tengwar_token item).map (acc ++ ·)) acc
        (s.map fun c => [c]) = some (acc ++ s) := by
  intro s
  induction s with
  | nil => intro acc _; simp [List.foldlM]
  | cons c r ih =>
    intro acc hsp
    have hc := hsp c (by simp)
    have htok : tengwar_token [c] = some [c] := by rcases hc with rfl | rfl <;> decide
    simp only [List.map_cons, List.foldlM_cons, htok, Option.map_some',
      Option.bind_eq_bind, Option.some_bind]
    rw [ih (acc ++ [c]) (fun d hd => hsp d (by simp [hd]))]
    simp

/-- Claim C7 (amended): conlang transliteration returns every empty or
whitespace-only input unchanged.  Script transliteration returns the empty
input, and whitespace-only inputs built from spaces and newlines,
unchanged — but it silently drops any other whitespace character (tab and
the rest of the recognized-set complement), as the counterexample shows. -/
theorem c7_whitespace_noop :
    (∀ s : List Char, (∀ c ∈ s, pyIsSpace c = true) →
      convert_to_black_speech s = s) ∧
    (∀ s : List Char, (∀ c ∈ s, c = ' ' ∨ c = '\n') →
      tengwar_start s = some s) := by
  constructor
  · intro s hsp
    unfold convert_to_black_speech
    have hdrop : s.dropWhile pyIsSpace = [] := by
      rw [List.dropWhile_eq_nil_iff]
      exact fun x hx => hsp x hx
    rw [if_pos (by simp [pyStrip, hdrop])]
  · intro s hsp
    unfold tengwar_start
    rw [show tokenize s = tokenizeFuel s.length s from rfl,
      tokenizeFuel_space s.length s le_rfl hsp]
    simpa using foldlM_space_tokens s [] hsp

/-- Claim C7, witness: the amended theorem applied at the whitespace-only
inputs `"\t"` (conlang side) and `" \n "` (script side). -/
theorem c7_witness :
    convert_to_black_speech "\t".toList = "\t".toList ∧
    tengwar_start " \n ".toList = some " \n ".toList :=
  ⟨c7_whitespace_noop.1 "\t".toList (by decide),
   c7_whitespace_noop.2 " \n ".toList (by decide)⟩

/-! ### Claim C3 -/

/-- Claim C3 (confirmed): whenever `tengwar_word` detaches a trailing s
during preprocessing, exactly one suffix glyph is appended at the very end
of the word's output: the output is `body ++ [sBucket c]` where `c` is the
final glyph of everything built before the reattachment.  `sBucket` is
deterministic in that final glyph, its three explicit glyph-class buckets
are pairwise disjoint, and a final glyph in none of them gets the default
suffix glyph `_` (so the appended glyph is always one of the four suffix
glyphs Å, Æ, ¥, `_`). -/
theorem c3_suffix_s_pairing :
    (∀ w : List Char, sDetached w = true → ∀ o, tengwar_word w = some o →
      ∃ body c, body.getLast? = some c ∧ o = body ++ [sBucket c]) ∧
    (∀ c ∈ "7um8k".toList, c ∉ "qwertyo".toList ∧ c ∉ "l9".toList) ∧
    (∀ c ∈ "qwertyo".toList, c ∉ "l9".toList) ∧
    (∀ c : Char, sBucket c ∈ [Char.ofNat 0xC5, Char.ofNat 0xC6, Char.ofNat 0xA5, '_']) := by
  refine ⟨?_, by decide, by decide, ?_⟩
  · intro w hs o ho
    have hs' : (detachS (tengwar_preprocess w)).2 = true := hs
    by_cases h1 : w.map pyLower = []
    · exfalso
      unfold sDetached tengwar_preprocess at hs
      rw [h1] at hs
      exact absurd hs (by decide)
    by_cases h2 : w.map pyLower = "of".toList
    · exfalso
      unfold sDetached tengwar_preprocess at hs
      rw [h2] at hs
      exact absurd hs (by decide)
    by_cases h3 : w.map pyLower = "the".toList
    · exfalso
      unfold sDetached tengwar_preprocess at hs
      rw [h3] at hs
      exact absurd hs (by decide)
    unfold tengwar_word at ho
    rw [if_neg h1, if_neg h2, if_neg h3] at ho
    simp only [hs', if_true] at ho
    rw [Option.bind_eq_some] at ho
    obtain ⟨out0, hcore, hrest⟩ := ho
    set out2 :=
      (if (detachE (detachS (tengwar_preprocess w)).1).2 then
        pairMap szChar out0 ++ ['O'] else pairMap szChar out0) with hout2
    cases hlast : out2.getLast? with
    | none =>
      rw [hlast] at hrest
      exact absurd hrest (by simp)
    | some c =>
      rw [hlast] at hrest
      simp only [Option.some.injEq] at hrest
      exact ⟨out2, c, hlast, hrest.symm⟩
  · intro c
    unfold sBucket
    split_ifs <;> simp

/-- Claim C3, witness: the theorem applied at the token `cats` (trailing s
detached; the body transduces to `z1E`, whose final glyph `E` falls in no
bucket, so the default suffix glyph `_` is appended exactly once). -/
theorem c3_witness :
    sDetached "cats".toList = true ∧
    (∃ body c, body.getLast? = some c ∧ "z1E_".toList = body ++ [sBucket c]) :=
  ⟨by decide,
   c3_suffix_s_pairing.1 "cats".toList (by decide) "z1E_".toList (by decide)⟩

/-! ### Claim C5 -/

/-- A character that occurs in some digraph-table key. -/
def inDoubleKey (c : Char) : Bool := doublesList.any fun e => e.1.contains c

/-- A letter with no entry in the consonant, vowel, or digraph tables,
other than the special-cased `x`: transducing it is a hard error. -/
def unhandledLetter (c : Char) : Bool :=
  pyIsAlpha c && !isVowelKey c && (consonant? c).isNone && !(c == 'x') &&
    !inDoubleKey c

/-- The letter buffer handed to the transducer: the preprocessing chain
followed by suffix detachment. -/
def transducerBuffer (w : List Char) : List Char :=
  (detachE (detachS (tengwar_preprocess w)).1).1

theorem double_some_inKey {a b g : Char} (h : double? a b = some g) :
    inDoubleKey a = true ∧ inDoubleKey b = true := by
  unfold double? at h
  rw [Option.map_eq_some'] at h
  obtain ⟨e, he, _⟩ := h
  have hm := List.mem_of_find?_eq_some he
  have hp := List.find?_some he
  have hkey : e.1 = [a, b] := eq_of_beq hp
  constructor <;>
    · unfold inDoubleKey
      rw [List.any_eq_true]
      exact ⟨e, hm, by rw [hkey]; simp⟩

/-- An unhandled letter anywhere in the buffer makes the transducer fail:
it is neither consumed by a digraph (it occurs in no digraph key), nor as
a vowel, consonant or `x`, so the recursion reaches it and errors. -/
theorem emit_none_of_unhandled :
    ∀ (b : List Char) (c : Char), unhandledLetter c = true → c ∈ b →
      tengwar_emit b = none := by
  have hun : ∀ c, unhandledLetter c = true →
      pyIsAlpha c = true ∧ isVowelKey c = false ∧ consonant? c = none ∧
      c ≠ 'x' ∧ inDoubleKey c = false := by
    intro c h
    unfold unhandledLetter at h
    simp only [Bool.and_eq_true, Bool.not_eq_true', beq_iff_eq,
      Option.isNone_iff_eq_none] at h
    exact ⟨h.1.1.1.1, h.1.1.1.2, h.1.1.2, by simpa using h.1.2, h.2⟩
  intro b
  induction b using tengwar_emit.induct with
  | case1 => intro c _ hc; simp at hc
  | case2 d hna =>
    intro c hcu hc
    obtain ⟨ha, _, _, _, _⟩ := hun c hcu
    simp only [List.mem_singleton] at hc
    subst hc
    exact absurd ha hna
  | case3 d hna hv =>
    intro c hcu hc
    obtain ⟨_, hnv, _, _, _⟩ := hun c hcu
    simp only [List.mem_singleton] at hc
    subst hc
    rw [hv] at hnv
    exact absurd hnv (by simp)
  | case4 d hna hv g hcons =>
    intro c hcu hc
    obtain ⟨_, _, hnc, _, _⟩ := hun c hcu
    simp only [List.mem_singleton] at hc
    subst hc
    rw [hcons] at hnc
    exact absurd hnc (by simp)
  | case5 hna hv hcons =>
    intro c hcu hc
    obtain ⟨_, _, _, hx, _⟩ := hun c hcu
    simp only [List.mem_singleton] at hc
    exact absurd hc hx
  | case6 d hna hv hcons hx =>
    intro c hcu hc
    unfold tengwar_emit
    rw [if_neg hna, if_neg hv, hcons, if_neg hx]
  | case7 a b r hna ih =>
    intro c hcu hc
    obtain ⟨ha, _, _, _, _⟩ := hun c hcu
    have hcr : c ∈ b :: r := by
      rcases List.mem_cons.mp hc with rfl | h
      · exact absurd ha hna
      · exact h
    unfold tengwar_emit
    rw [if_pos hna, ih c hcu hcr]
    rfl
  | case8 a b r hna g hd ih =>
    intro c hcu hc
    obtain ⟨_, _, _, _, hk⟩ := hun c hcu
    obtain ⟨hka, hkb⟩ := double_some_inKey hd
    have hcr : c ∈ r := by
      rcases List.mem_cons.mp hc with rfl | h
      · rw [hka] at hk; exact absurd hk (by simp)
      · rcases List.mem_cons.mp h with rfl | h2
        · rw [hkb] at hk; exact absurd hk (by simp)
        · exact h2
    unfold tengwar_emit
    rw [if_neg hna, hd, ih c hcu hcr]
    rfl
  | case9 a b r hna hd hva hvb ih =>
    intro c hcu hc
    obtain ⟨_, hnv, _, _, _⟩ := hun c hcu
    have hcr : c ∈ b :: r := by
      rcases List.mem_cons.mp hc with rfl | h
      · rw [hva] at hnv; exact absurd hnv (by simp)
      · exact h
    unfold tengwar_emit
    rw [if_neg hna, hd, if_pos hva, if_pos hvb, ih c hcu hcr,
      show vfc? carrierChar = some 3 from rfl]
    simp only [Option.some_bind, Option.map_none']
    cases vowelGlyph a 3 <;> rfl
  | case10 a b r hna hd hva hvb ih =>
    intro c hcu hc
    obtain ⟨_, hnv, _, _, _⟩ := hun c hcu
    have hcr : c ∈ b :: r := by
      rcases List.mem_cons.mp hc with rfl | h
      · rw [hva] at hnv; exact absurd hnv (by simp)
      · exact h
    unfold tengwar_emit
    rw [if_neg hna, hd, if_pos hva, if_neg (by simp [hvb]), ih c hcu hcr]
    rfl
  | case11 a b r hna hd hva g hcons ih =>
    intro c hcu hc
    obtain ⟨_, _, hnc, _, _⟩ := hun c hcu
    have hcr : c ∈ b :: r := by
      rcases List.mem_cons.mp hc with rfl | h
      · rw [hcons] at hnc; exact absurd hnc (by simp)
      · exact h
    unfold tengwar_emit
    rw [if_neg hna, hd, if_neg hva, hcons, ih c hcu hcr]
    rfl
  | case12 b r hna hd hva hcons ih =>
    intro c hcu hc
    obtain ⟨_, _, _, hx, _⟩ := hun c hcu
    have hcr : c ∈ b :: r := by
      rcases List.mem_cons.mp hc with rfl | h
      · exact absurd rfl hx
      · exact h
    unfold tengwar_emit
    rw [if_neg hna, hd, if_neg hva, hcons, if_pos rfl, ih c hcu hcr]
    rfl
  | case13 a b r hna hd hva hcons hx =>
    intro c hcu hc
    unfold tengwar_emit
    rw [if_neg hna, hd, if_neg hva, hcons, if_neg hx]

/-- Claim C5 (confirmed): for every word token whose buffer, after all
preprocessing rewrites and suffix detachment, contains a letter with no
entry in the consonant, vowel, or digraph tables (and not the
special-cased `x`), `tengwar_word` fails with an error (`none`, modelling
the uncaught `NotImplementedError`); the letter is never silently skipped
or replaced, and `tengwar_start` propagates the failure to the caller. -/
theorem c5_unmapped_letter_error (w : List Char) (c : Char)
    (hcu : unhandledLetter c = true) (hc : c ∈ transducerBuffer w) :
    tengwar_word w = none := by
  by_cases h1 : w.map pyLower = []
  · exfalso
    unfold transducerBuffer tengwar_preprocess at hc
    rw [h1] at hc
    rw [show (detachE (detachS (pairMap yChar
        (pyReplace "q".toList "k".toList
          (pairMap rChar (lastCFix (pairMap cgChar (replace_th []))))))).1).1 =
        ([] : List Char) from by decide] at hc
    exact absurd hc (by simp)
  by_cases h2 : w.map pyLower = "of".toList
  · exfalso
    unfold transducerBuffer tengwar_preprocess at hc
    rw [h2] at hc
    rw [show (detachE (detachS (pairMap yChar
        (pyReplace "q".toList "k".toList
          (pairMap rChar (lastCFix (pairMap cgChar (replace_th "of".toList))))))).1).1 =
        (['o', 'f'] : List Char) from by decide] at hc
    have := (by decide : ∀ u ∈ (['o', 'f'] : List Char), unhandledLetter u = false) _ hc
    rw [this] at hcu
    exact absurd hcu (by simp)
  by_cases h3 : w.map pyLower = "the".toList
  · exfalso
    unfold transducerBuffer tengwar_preprocess at hc
    rw [h3] at hc
    rw [show (detachE (detachS (pairMap yChar
        (pyReplace "q".toList "k".toList
          (pairMap rChar (lastCFix (pairMap cgChar (replace_th "the".toList))))))).1).1 =
        (['t', 'h'] : List Char) from by decide] at hc
    have := (by decide : ∀ u ∈ (['t', 'h'] : List Char), unhandledLetter u = false) _ hc
    rw [this] at hcu
    exact absurd hcu (by simp)
  have hbne : (detachE (detachS (tengwar_preprocess w)).1).1 ≠ [] := by
    intro h
    have hc' : c ∈ (detachE (detachS (tengwar_preprocess w)).1).1 := hc
    rw [h] at hc'
    exact absurd hc' (by simp)
  unfold tengwar_word
  rw [if_neg h1, if_neg h2, if_neg h3]
  have hcore : (if (detachE (detachS (tengwar_preprocess w)).1).1 = [] then
      some [carrierChar]
    else tengwar_emit (detachE (detachS (tengwar_preprocess w)).1).1) = none := by
    rw [if_neg hbne]
    exact emit_none_of_unhandled _ c hcu hc
  simp only [hcore, Option.none_bind]

/-- Claim C5, witness: the token `café` — after preprocessing its buffer
is `kafé`, and `é` is alphabetic but has no consonant, vowel, or digraph
entry, so the conversion fails. -/
theorem c5_witness :
    unhandledLetter 'é' = true ∧ 'é' ∈ transducerBuffer "café".toList ∧
    tengwar_word "café".toList = none :=
  ⟨by decide, by decide,
   c5_unmapped_letter_error "café".toList 'é' (by decide) (by decide)⟩

/-! ### Claim C4: the preprocessed-buffer invariant -/

/-- The well-formed-buffer invariant, parameterized by the set `p` of
admissible plain characters: the buffer is a sequence of chunks, each
either a voiced-digraph marker pair `TH`, a marked-c pair `Ch`, or a
single plain character. -/
def ChunkOK (p : Char → Bool) : List Char → Bool
  | [] => true
  | c :: r =>
    if c = 'T' then
      match r with
      | 'H' :: r2 => ChunkOK p r2
      | _ => false
    else if c = 'C' then
      match r with
      | 'h' :: r2 => ChunkOK p r2
      | _ => false
    else p c && ChunkOK p r

/-- The buffer invariant right after `replace_th`: lowercase letters and
`TH` marker pairs only (no `Ch` chunks yet). -/
def Stage1OK : List Char → Bool
  | [] => true
  | c :: r =>
    if c = 'T' then
      match r with
      | 'H' :: r2 => Stage1OK r2
      | _ => false
    else isLowerAZ c && Stage1OK r

/-- Plain characters after the hard/soft c-and-g pass: lowercase letters
without `c`. -/
def p2chars (c : Char) : Bool := "abdefghijklmnopqrstuvwxyz".toList.contains c

/-- Plain characters after the pre-vowel r pass: `p2chars` plus `R`. -/
def p3chars (c : Char) : Bool := p2chars c || c == 'R'

/-- Plain characters after the `q → k` fold: `p3chars` without `q`. -/
def p4chars (c : Char) : Bool :=
  "abdefghijklmnoprstuvwxyz".toList.contains c || c == 'R'

/-- Plain characters of the final preprocessed buffer: `p4chars` plus `Y`. -/
def pFinal (c : Char) : Bool := p4chars c || c == 'Y'

theorem ChunkOK_cons_of_ne {p : Char → Bool} {x : Char} {l : List Char}
    (hT : x ≠ 'T') (hC : x ≠ 'C') :
    ChunkOK p (x :: l) = (p x && ChunkOK p l) := by
  conv_lhs => rw [ChunkOK.eq_def]
  simp only [if_neg hT, if_neg hC]

theorem ChunkOK_TH {p : Char → Bool} {l : List Char} :
    ChunkOK p ('T' :: 'H' :: l) = ChunkOK p l := rfl

theorem ChunkOK_Ch {p : Char → Bool} {l : List Char} :
    ChunkOK p ('C' :: 'h' :: l) = ChunkOK p l := rfl

theorem Stage1OK_cons_of_ne {x : Char} {l : List Char} (hT : x ≠ 'T') :
    Stage1OK (x :: l) = (isLowerAZ x && Stage1OK l) := by
  conv_lhs => rw [Stage1OK.eq_def]
  simp only [if_neg hT]

theorem Stage1OK_TH {l : List Char} : Stage1OK ('T' :: 'H' :: l) = Stage1OK l := rfl

theorem lower_ne_T {c : Char} (h : isLowerAZ c = true) : c ≠ 'T' := by
  intro heq
  subst heq
  exact absurd h (by decide)

theorem lower_ne_C {c : Char} (h : isLowerAZ c = true) : c ≠ 'C' := by
  intro heq
  subst heq
  exact absurd h (by decide)

/-- An all-lowercase buffer satisfies the stage-1 invariant. -/
theorem stage1_of_lower :
    ∀ l : List Char, (∀ c ∈ l, isLowerAZ c = true) → Stage1OK l = true := by
  intro l
  induction l with
  | nil => intro _; rfl
  | cons c r ih =>
    intro h
    have hc := h c (by simp)
    rw [Stage1OK_cons_of_ne (lower_ne_T hc), hc, ih (fun d hd => h d (by simp [hd]))]
    rfl

/-- If the buffer starts with `T` but not with the pair `TH`, the stage-1
invariant fails. -/
theorem Stage1OK_T_bad {r : List Char} (hr : ∀ r2, r ≠ 'H' :: r2) :
    Stage1OK ('T' :: r) = false := by
  rw [Stage1OK.eq_3 'T' r (fun r2 h => hr r2 h), if_pos rfl]

/-- The stage-1 invariant is closed under concatenation. -/
theorem Stage1OK_append :
    ∀ a b : List Char, Stage1OK a = true → Stage1OK b = true →
      Stage1OK (a ++ b) = true := by
  intro a
  induction a using Stage1OK.induct with
  | case1 => intro b _ hb; exact hb
  | case2 r2 ih =>
    intro b hA hb
    rw [show ('T' :: 'H' :: r2) ++ b = 'T' :: 'H' :: (r2 ++ b) from rfl, Stage1OK_TH]
    rw [Stage1OK_TH] at hA
    exact ih b hA hb
  | case3 r hr =>
    intro b hA _
    rw [Stage1OK_T_bad (fun r2 heq => hr r2 heq)] at hA
    exact absurd hA (by simp)
  | case4 c r hT ih =>
    intro b hA hb
    rw [Stage1OK_cons_of_ne hT] at hA
    simp only [Bool.and_eq_true] at hA
    rw [show (c :: r) ++ b = c :: (r ++ b) from rfl, Stage1OK_cons_of_ne hT,
      hA.1, ih b hA.2 hb]
    rfl

/-- Dropping an all-lowercase prefix preserves the stage-1 invariant. -/
theorem stage1_drop_prefix :
    ∀ (pat l : List Char), (∀ c ∈ pat, isLowerAZ c = true) →
      Stage1OK (pat ++ l) = true → Stage1OK l = true := by
  intro pat
  induction pat with
  | nil => intro l _ h; exact h
  | cons c p ih =>
    intro l hlow h
    have hc := hlow c (by simp)
    rw [show (c :: p) ++ l = c :: (p ++ l) from rfl,
      Stage1OK_cons_of_ne (lower_ne_T hc)] at h
    simp only [Bool.and_eq_true] at h
    exact ih l (fun d hd => hlow d (by simp [hd])) h.2

/-- A nonempty all-lowercase pattern never matches at a voiced-marker `H`. -/
theorem isPrefixOf_H_false {pat : List Char} (hne : pat ≠ [])
    (hlow : ∀ c ∈ pat, isLowerAZ c = true) (r2 : List Char) :
    pat.isPrefixOf ('H' :: r2) = false := by
  cases pat with
  | nil => exact absurd rfl hne
  | cons p0 pp =>
    have h0 := hlow p0 (by simp)
    have hp0 : p0 ≠ 'H' := by
      intro heq
      subst heq
      exact absurd h0 (by decide)
    show (p0 == 'H' && pp.isPrefixOf r2) = false
    simp [hp0]

/-- `str.replace(pat, repl)` preserves the stage-1 invariant when the
pattern is nonempty all-lowercase and the replacement satisfies the
invariant: matched segments are replaced whole, unmatched characters are
kept, and a `TH` marker pair is never split (no lowercase pattern can
match at its `H`). -/
theorem stage1_pyReplaceFuel (pat repl : List Char) (hne : pat ≠ [])
    (hlow : ∀ c ∈ pat, isLowerAZ c = true) (hrep : Stage1OK repl = true) :
    ∀ n l, l.length ≤ n → Stage1OK l = true →
      Stage1OK (pyReplaceFuel pat repl n l) = true := by
  intro n
  induction n using Nat.strong_induction_on with
  | _ n ih =>
    intro l hlen hl
    cases n with
    | zero => exact hl
    | succ m =>
      cases l with
      | nil => exact hl
      | cons c r =>
        simp only [pyReplaceFuel]
        by_cases hpre : pat ≠ [] ∧ pat.isPrefixOf (c :: r)
        · rw [if_pos hpre]
          obtain ⟨t, ht⟩ := List.isPrefixOf_iff_prefix.mp hpre.2
          have hdrop : (c :: r).drop pat.length = t := by
            rw [← ht]
            exact List.drop_left pat t
          have hpatlen : 1 ≤ pat.length := by
            cases pat with
            | nil => exact absurd rfl hne
            | cons _ _ => simp
          have hlen2 : pat.length + t.length = r.length + 1 := by
            have := congrArg List.length ht
            simpa using this
          have hto : Stage1OK t = true :=
            stage1_drop_prefix pat t hlow (by rw [ht]; exact hl)
          refine Stage1OK_append _ _ hrep ?_
          rw [hdrop]
          have hlen3 : (c :: r).length ≤ m + 1 := hlen
          exact ih m (by omega) t (by simp at hlen3; omega) hto
        · rw [if_neg hpre]
          by_cases hcT : c = 'T'
          · subst hcT
            cases r with
            | nil =>
              rw [Stage1OK_T_bad (by intro r2 h; cases h)] at hl
              exact absurd hl (by simp)
            | cons d r2 =>
              by_cases hdH : d = 'H'
              · subst hdH
                rw [Stage1OK_TH] at hl
                cases m with
                | zero => simp at hlen
                | succ k =>
                  simp only [pyReplaceFuel]
                  rw [if_neg (by
                    intro hcon
                    rw [isPrefixOf_H_false hne hlow r2] at hcon
                    exact absurd hcon.2 (by simp))]
                  rw [Stage1OK_TH]
                  have hlt : (('T' : Char) :: 'H' :: r2).length ≤ k + 1 + 1 := hlen
                  exact ih k (by omega) r2 (by simp at hlt; omega) hl
              · rw [Stage1OK_T_bad (by
                  intro r2' heq
                  rw [List.cons.injEq] at heq
                  exact hdH heq.1)] at hl
                exact absurd hl (by simp)
          · rw [Stage1OK_cons_of_ne hcT] at hl
            simp only [Bool.and_eq_true] at hl
            rw [Stage1OK_cons_of_ne hcT, hl.1,
              ih m (by omega) r (by simp at hlen; omega) hl.2]
            rfl

theorem foldl_stage1 {α : Type} (L : List α) (f : List Char → α → List Char)
    (hf : ∀ x ∈ L, ∀ i, Stage1OK i = true → Stage1OK (f i x) = true) :
    ∀ i, Stage1OK i = true → Stage1OK (L.foldl f i) = true := by
  induction L with
  | nil => intro i h; exact h
  | cons x L ih =>
    intro i h
    exact ih (fun y hy => hf y (by simp [hy])) _ (hf x (by simp) i h)

/-- `replace_th` preserves the stage-1 invariant: every voicing loop
replaces a nonempty lowercase word by its `TH`-marked form. -/
theorem stage1_replace_th (inp : List Char) (h : Stage1OK inp = true) :
    Stage1OK (replace_th inp) = true := by
  have hsafe : ∀ x ∈ voiced_th_always_safe,
      x ≠ [] ∧ (∀ c ∈ x, isLowerAZ c = true) ∧ Stage1OK (markTH x) = true := by
    decide
  have hpref : ∀ x ∈ voiced_th_prefices,
      x ≠ [] ∧ (∀ c ∈ x, isLowerAZ c = true) ∧ Stage1OK (markTH x) = true := by
    decide
  have hspec : ∀ x ∈ voiced_th_special_prefices,
      x ≠ [] ∧ (∀ c ∈ x, isLowerAZ c = true) ∧
        Stage1OK (pyReplaceCount "TH".toList "th".toList 1
          (pyReplaceCount "th".toList "TH".toList 2 x)) = true := by
    decide
  unfold replace_th
  refine foldl_stage1 _ _ ?_ _ (foldl_stage1 _ _ ?_ _
    (foldl_stage1 _ _ ?_ _ (foldl_stage1 _ _ ?_ _ h)))
  · intro x hx i hi
    split_ifs
    · obtain ⟨hne, hlow, hrep⟩ := hspec x hx
      exact stage1_pyReplaceFuel _ _ hne hlow hrep _ _ le_rfl hi
    · exact hi
  · intro x hx i hi
    split_ifs
    · obtain ⟨hne, hlow, hrep⟩ := hpref x hx
      exact stage1_pyReplaceFuel _ _ hne hlow hrep _ _ le_rfl hi
    · exact hi
  · intro x hx i hi
    split_ifs
    · exact stage1_pyReplaceFuel _ _ (by decide) (by decide) (by decide) _ _ le_rfl hi
    · exact hi
  · intro x hx i hi
    split_ifs
    · obtain ⟨hne, hlow, hrep⟩ := hsafe x hx
      exact stage1_pyReplaceFuel _ _ hne hlow hrep _ _ le_rfl hi
    · exact hi

theorem pairMap_ne_nil {f : Char → Char → Char} {l : List Char} (h : l ≠ []) :
    pairMap f l ≠ [] := by
  cases l with
  | nil => exact absurd rfl h
  | cons a r => cases r <;> simp [pairMap]

theorem lastCFix_cons {x : Char} {l : List Char} (h : l ≠ []) :
    lastCFix (x :: l) = x :: lastCFix l := by
  cases l with
  | nil => exact absurd rfl h
  | cons b r => rfl

theorem contains_iff_mem {l : List Char} {a : Char} :
    l.contains a = true ↔ a ∈ l := List.elem_iff

theorem p2_of_lower {a : Char} (ha : isLowerAZ a = true) (hc : a ≠ 'c') :
    p2chars a = true := by
  have hm : a ∈ lowerAZchars := contains_iff_mem.mp ha
  have := (by decide :
    ∀ u ∈ lowerAZchars, u = 'c' ∨ p2chars u = true) _ hm
  rcases this with rfl | h
  · exact absurd rfl hc
  · exact h

theorem cg_plain {a b : Char} (ha : isLowerAZ a = true)
    (hnc : ¬(a = 'c' ∧ b = 'h')) :
    p2chars (cgChar a b) = true ∧ cgChar a b ≠ 'T' ∧ cgChar a b ≠ 'C' := by
  unfold cgChar
  split_ifs with h1 h2 h3 h4 h5
  · exact ⟨by decide, by decide, by decide⟩
  · exact ⟨by decide, by decide, by decide⟩
  · exact ⟨by decide, by decide, by decide⟩
  · exact absurd ⟨h3, h5⟩ hnc
  · exact ⟨by decide, by decide, by decide⟩
  · exact ⟨p2_of_lower ha h3, lower_ne_T ha, lower_ne_C ha⟩

/-- The hard/soft c-and-g pass followed by the final-c fix turns a
stage-1 buffer into a chunk-invariant buffer over `p2chars`: every `c` is
rewritten (to `s`, `k` or the `Ch` marker pair), and `TH` pairs survive. -/
theorem chunk2_pass2 :
    ∀ n l, l.length ≤ n → Stage1OK l = true →
      ChunkOK p2chars (lastCFix (pairMap cgChar l)) = true := by
  intro n
  induction n using Nat.strong_induction_on with
  | _ n ih =>
    intro l hlen hl
    cases l with
    | nil => rfl
    | cons a r =>
      cases r with
      | nil =>
        have haT : a ≠ 'T' := by
          intro heq
          subst heq
          rw [Stage1OK_T_bad (by intro r2 h; cases h)] at hl
          exact absurd hl (by simp)
        rw [Stage1OK_cons_of_ne haT] at hl
        simp only [Bool.and_eq_true] at hl
        show ChunkOK p2chars (lastCFix [a]) = true
        by_cases hac : a = 'c'
        · subst hac; decide
        · have : lastCFix [a] = [a] := by
            unfold lastCFix
            rw [if_neg hac]
          rw [this, ChunkOK_cons_of_ne (lower_ne_T hl.1) (lower_ne_C hl.1),
            p2_of_lower hl.1 hac]
          rfl
      | cons b r =>
        by_cases haT : a = 'T'
        · subst haT
          by_cases hbH : b = 'H'
          · subst hbH
            rw [Stage1OK_TH] at hl
            cases r with
            | nil => decide
            | cons r0 r' =>
              have hstep : lastCFix (pairMap cgChar ('T' :: 'H' :: r0 :: r')) =
                  'T' :: 'H' :: lastCFix (pairMap cgChar (r0 :: r')) := by
                show lastCFix ('T' :: 'H' :: pairMap cgChar (r0 :: r')) = _
                rw [lastCFix_cons (by simp), lastCFix_cons (pairMap_ne_nil (by simp))]
              rw [hstep, ChunkOK_TH]
              have hlt : (('T' : Char) :: 'H' :: r0 :: r').length ≤ n := hlen
              simp only [List.length_cons] at hlt
              exact ih (r0 :: r').length
                (by simp only [List.length_cons]; omega) _ le_rfl hl
          · exfalso
            rw [Stage1OK_T_bad (by
              intro r2 heq
              rw [List.cons.injEq] at heq
              exact hbH heq.1)] at hl
            exact absurd hl (by simp)
        · rw [Stage1OK_cons_of_ne haT] at hl
          simp only [Bool.and_eq_true] at hl
          by_cases hac : a = 'c' ∧ b = 'h'
          · obtain ⟨ha1, hb1⟩ := hac
            subst ha1
            subst hb1
            cases r with
            | nil => decide
            | cons r0 r' =>
              have hstep : lastCFix (pairMap cgChar ('c' :: 'h' :: r0 :: r')) =
                  'C' :: 'h' :: lastCFix (pairMap cgChar (r0 :: r')) := by
                show lastCFix ('C' :: 'h' :: pairMap cgChar (r0 :: r')) = _
                rw [lastCFix_cons (by simp), lastCFix_cons (pairMap_ne_nil (by simp))]
              rw [hstep, ChunkOK_Ch]
              have hl2 := hl.2
              rw [Stage1OK_cons_of_ne (by decide)] at hl2
              simp only [Bool.and_eq_true] at hl2
              have hlt : (('c' : Char) :: 'h' :: r0 :: r').length ≤ n := hlen
              simp only [List.length_cons] at hlt
              exact ih (r0 :: r').length
                (by simp only [List.length_cons]; omega) _ le_rfl hl2.2
          · obtain ⟨hp2, hT2, hC2⟩ := cg_plain hl.1 hac
            have hstep : lastCFix (pairMap cgChar (a :: b :: r)) =
                cgChar a b :: lastCFix (pairMap cgChar (b :: r)) := by
              show lastCFix (cgChar a b :: pairMap cgChar (b :: r)) = _
              rw [lastCFix_cons (pairMap_ne_nil (by simp))]
            rw [hstep, ChunkOK_cons_of_ne hT2 hC2, hp2]
            have hlt : (a :: b :: r).length ≤ n := hlen
            simp only [List.length_cons] at hlt
            rw [ih (b :: r).length
              (by simp only [List.length_cons]; omega) _ le_rfl hl.2]
            rfl

theorem ChunkOK_T_bad {p : Char → Bool} {r : List Char}
    (hr : ∀ r2, r ≠ 'H' :: r2) : ChunkOK p ('T' :: r) = false := by
  cases r with
  | nil => rfl
  | cons d r3 =>
    by_cases hd : d = 'H'
    · subst hd; exact absurd rfl (hr r3)
    · by_cases hd2 : d = 'h'
      · subst hd2
        rw [ChunkOK.eq_3, if_pos rfl]
      · rw [ChunkOK.eq_4 p 'T' (d :: r3)
          (fun r2 heq => hd (by injection heq))
          (fun r2 heq => hd2 (by injection heq)), if_pos rfl]

theorem ChunkOK_C_bad {p : Char → Bool} {r : List Char}
    (hr : ∀ r2, r ≠ 'h' :: r2) : ChunkOK p ('C' :: r) = false := by
  cases r with
  | nil => rfl
  | cons d r3 =>
    by_cases hd : d = 'h'
    · subst hd; exact absurd rfl (hr r3)
    · by_cases hd2 : d = 'H'
      · subst hd2
        rw [ChunkOK.eq_2, if_neg (by decide), if_pos rfl]
        rfl
      · rw [ChunkOK.eq_4 p 'C' (d :: r3)
          (fun r2 heq => hd2 (by injection heq))
          (fun r2 heq => hd (by injection heq)), if_neg (by decide), if_pos rfl]

/-- Chunk-structure destructor for the buffer invariant. -/
theorem ChunkOK_cases {p : Char → Bool} {l : List Char}
    (h : ChunkOK p l = true) :
    l = [] ∨
    (∃ r2, l = 'T' :: 'H' :: r2 ∧ ChunkOK p r2 = true) ∨
    (∃ r2, l = 'C' :: 'h' :: r2 ∧ ChunkOK p r2 = true) ∨
    (∃ c r, l = c :: r ∧ c ≠ 'T' ∧ c ≠ 'C' ∧ p c = true ∧ ChunkOK p r = true) := by
  cases l with
  | nil => exact Or.inl rfl
  | cons c r =>
    by_cases hT : c = 'T'
    · subst hT
      cases r with
      | nil =>
        rw [ChunkOK_T_bad (fun r2 heq => by cases heq)] at h
        exact absurd h (by simp)
      | cons d r2 =>
        by_cases hd : d = 'H'
        · subst hd
          rw [ChunkOK_TH] at h
          exact Or.inr (Or.inl ⟨r2, rfl, h⟩)
        · rw [ChunkOK_T_bad (fun r2' heq => hd (by injection heq))] at h
          exact absurd h (by simp)
    · by_cases hC : c = 'C'
      · subst hC
        cases r with
        | nil =>
          rw [ChunkOK_C_bad (fun r2 heq => by cases heq)] at h
          exact absurd h (by simp)
        | cons d r2 =>
          by_cases hd : d = 'h'
          · subst hd
            rw [ChunkOK_Ch] at h
            exact Or.inr (Or.inr (Or.inl ⟨r2, rfl, h⟩))
          · rw [ChunkOK_C_bad (fun r2' heq => hd (by injection heq))] at h
            exact absurd h (by simp)
      · rw [ChunkOK_cons_of_ne hT hC] at h
        simp only [Bool.and_eq_true] at h
        exact Or.inr (Or.inr (Or.inr ⟨c, r, rfl, hT, hC, h.1, h.2⟩))

/-- A pairwise in-place pass that fixes the four marker characters and
keeps plain characters plain preserves the chunk invariant. -/
theorem pairMap_chunk {p p' : Char → Bool} {f : Char → Char → Char}
    (hT : ∀ b, f 'T' b = 'T') (hH : ∀ b, f 'H' b = 'H')
    (hC : ∀ b, f 'C' b = 'C') (hh : ∀ b, f 'h' b = 'h')
    (hplain : ∀ a b, p a = true →
      p' (f a b) = true ∧ f a b ≠ 'T' ∧ f a b ≠ 'C')
    (hincl : ∀ a, p a = true → p' a = true ∧ a ≠ 'T' ∧ a ≠ 'C') :
    ∀ n l, l.length ≤ n → ChunkOK p l = true →
      ChunkOK p' (pairMap f l) = true := by
  intro n
  induction n using Nat.strong_induction_on with
  | _ n ih =>
    intro l hlen hl
    rcases ChunkOK_cases hl with rfl | ⟨r2, rfl, hr⟩ | ⟨r2, rfl, hr⟩ |
      ⟨c, r, rfl, hcT, hcC, hpc, hr⟩
    · rfl
    · cases r2 with
      | nil =>
        show ChunkOK p' [f 'T' 'H', 'H'] = true
        rw [hT]
        rfl
      | cons r0 r' =>
        show ChunkOK p' (f 'T' 'H' :: f 'H' r0 :: pairMap f (r0 :: r')) = true
        rw [hT, hH, ChunkOK_TH]
        have hlt : (('T' : Char) :: 'H' :: r0 :: r').length ≤ n := hlen
        simp only [List.length_cons] at hlt
        exact ih (r0 :: r').length (by simp only [List.length_cons]; omega) _ le_rfl hr
    · cases r2 with
      | nil =>
        show ChunkOK p' [f 'C' 'h', 'h'] = true
        rw [hC]
        rfl
      | cons r0 r' =>
        show ChunkOK p' (f 'C' 'h' :: f 'h' r0 :: pairMap f (r0 :: r')) = true
        rw [hC, hh, ChunkOK_Ch]
        have hlt : (('C' : Char) :: 'h' :: r0 :: r').length ≤ n := hlen
        simp only [List.length_cons] at hlt
        exact ih (r0 :: r').length (by simp only [List.length_cons]; omega) _ le_rfl hr
    · cases r with
      | nil =>
        show ChunkOK p' [c] = true
        obtain ⟨hp', hT', hC'⟩ := hincl c hpc
        rw [ChunkOK_cons_of_ne hT' hC', hp']
        rfl
      | cons b r' =>
        show ChunkOK p' (f c b :: pairMap f (b :: r')) = true
        obtain ⟨hp', hT', hC'⟩ := hplain c b hpc
        rw [ChunkOK_cons_of_ne hT' hC', hp']
        have hlt : (c :: b :: r').length ≤ n := hlen
        simp only [List.length_cons] at hlt
        rw [ih (b :: r').length (by simp only [List.length_cons]; omega) _ le_rfl hr]
        rfl

/-- A character map that fixes the four marker characters and keeps plain
characters plain preserves the chunk invariant. -/
theorem map_chunk {p p' : Char → Bool} {f : Char → Char}
    (hT : f 'T' = 'T') (hH : f 'H' = 'H') (hC : f 'C' = 'C') (hh : f 'h' = 'h')
    (hplain : ∀ a, p a = true → p' (f a) = true ∧ f a ≠ 'T' ∧ f a ≠ 'C') :
    ∀ n l, l.length ≤ n → ChunkOK p l = true →
      ChunkOK p' (l.map f) = true := by
  intro n
  induction n using Nat.strong_induction_on with
  | _ n ih =>
    intro l hlen hl
    rcases ChunkOK_cases hl with rfl | ⟨r2, rfl, hr⟩ | ⟨r2, rfl, hr⟩ |
      ⟨c, r, rfl, hcT, hcC, hpc, hr⟩
    · rfl
    · show ChunkOK p' (f 'T' :: f 'H' :: r2.map f) = true
      rw [hT, hH, ChunkOK_TH]
      have hlt : (('T' : Char) :: 'H' :: r2).length ≤ n := hlen
      simp only [List.length_cons] at hlt
      exact ih r2.length (by omega) _ le_rfl hr
    · show ChunkOK p' (f 'C' :: f 'h' :: r2.map f) = true
      rw [hC, hh, ChunkOK_Ch]
      have hlt : (('C' : Char) :: 'h' :: r2).length ≤ n := hlen
      simp only [List.length_cons] at hlt
      exact ih r2.length (by omega) _ le_rfl hr
    · show ChunkOK p' (f c :: r.map f) = true
      obtain ⟨hp', hT', hC'⟩ := hplain c hpc
      rw [ChunkOK_cons_of_ne hT' hC', hp']
      have hlt : (c :: r).length ≤ n := hlen
      simp only [List.length_cons] at hlt
      rw [ih r.length (by omega) _ le_rfl hr]
      rfl

/-- The pre-vowel r pass preserves the chunk invariant, enlarging the
plain alphabet by `R`. -/
theorem chunk3_rPass {l : List Char} (h : ChunkOK p2chars l = true) :
    ChunkOK p3chars (pairMap rChar l) = true := by
  refine pairMap_chunk (fun b => rfl) (fun b => rfl) (fun b => rfl) (fun b => rfl)
    ?_ ?_ l.length l le_rfl h
  · intro a b ha
    unfold rChar
    split_ifs with h1
    · exact ⟨by decide, by decide, by decide⟩
    · refine ⟨?_, ?_, ?_⟩
      · unfold p3chars
        rw [ha]
        rfl
      · intro heq; subst heq; exact absurd ha (by decide)
      · intro heq; subst heq; exact absurd ha (by decide)
  · intro a ha
    refine ⟨?_, ?_, ?_⟩
    · unfold p3chars
      rw [ha]
      rfl
    · intro heq; subst heq; exact absurd ha (by decide)
    · intro heq; subst heq; exact absurd ha (by decide)

theorem p4_of_p3 {a : Char} (ha : p3chars a = true) (hq : a ≠ 'q') :
    p4chars a = true := by
  unfold p3chars at ha
  simp only [Bool.or_eq_true] at ha
  rcases ha with h | h
  · have hm : a ∈ "abdefghijklmnopqrstuvwxyz".toList := contains_iff_mem.mp h
    have := (by decide : ∀ u ∈ "abdefghijklmnopqrstuvwxyz".toList,
      u = 'q' ∨ p4chars u = true) _ hm
    rcases this with rfl | h2
    · exact absurd rfl hq
    · exact h2
  · rw [eq_of_beq h]
    decide

theorem qfold_eq_map : ∀ (n : Nat) (l : List Char), l.length ≤ n →
    pyReplaceFuel "q".toList "k".toList n l =
      l.map (fun c => if c = 'q' then 'k' else c) := by
  intro n
  induction n with
  | zero =>
    intro l h
    have : l = [] := List.eq_nil_of_length_eq_zero (Nat.le_zero.mp h)
    subst this
    rfl
  | succ m ih =>
    intro l hlen
    cases l with
    | nil => rfl
    | cons c r =>
      simp only [pyReplaceFuel]
      by_cases hc : c = 'q'
      · subst hc
        have hpre : ("q".toList).isPrefixOf ('q' :: r) = true := by
          show (('q' == 'q') && List.isPrefixOf [] r) = true
          cases r <;> rfl
        rw [if_pos ⟨by decide, hpre⟩]
        show 'k' :: pyReplaceFuel "q".toList "k".toList m r = _
        rw [ih r (by simp at hlen; omega)]
        simp
      · rw [if_neg (by
          rintro ⟨-, hcon⟩
          have : (('q' == c) && List.isPrefixOf [] r) = true := hcon
          simp only [Bool.and_eq_true, beq_iff_eq] at this
          exact hc this.1.symm)]
        rw [ih r (by simp at hlen; omega)]
        simp [hc]

/-- The `q → k` fold preserves the chunk invariant, removing `q` from the
plain alphabet. -/
theorem chunk4_qFold {l : List Char} (h : ChunkOK p3chars l = true) :
    ChunkOK p4chars (pyReplace "q".toList "k".toList l) = true := by
  unfold pyReplace
  rw [qfold_eq_map l.length l le_rfl]
  refine map_chunk rfl rfl rfl rfl ?_ l.length l le_rfl h
  intro a ha
  by_cases hq : a = 'q'
  · subst hq
    exact ⟨by decide, by decide, by decide⟩
  · rw [if_neg hq]
    refine ⟨p4_of_p3 ha hq, ?_, ?_⟩
    · intro heq; subst heq; exact absurd ha (by decide)
    · intro heq; subst heq; exact absurd ha (by decide)

/-- The consonantal-y pass preserves the chunk invariant, enlarging the
plain alphabet by `Y`. -/
theorem chunk5_yPass {l : List Char} (h : ChunkOK p4chars l = true) :
    ChunkOK pFinal (pairMap yChar l) = true := by
  refine pairMap_chunk (fun b => rfl) (fun b => rfl) (fun b => rfl) (fun b => rfl)
    ?_ ?_ l.length l le_rfl h
  · intro a b ha
    unfold yChar
    split_ifs with h1
    · exact ⟨by decide, by decide, by decide⟩
    · refine ⟨?_, ?_, ?_⟩
      · unfold pFinal
        rw [ha]
        rfl
      · intro heq; subst heq; exact absurd ha (by decide)
      · intro heq; subst heq; exact absurd ha (by decide)
  · intro a ha
    refine ⟨?_, ?_, ?_⟩
    · unfold pFinal
      rw [ha]
      rfl
    · intro heq; subst heq; exact absurd ha (by decide)
    · intro heq; subst heq; exact absurd ha (by decide)

/-- Removing a final character that is not the second half of a marker
pair preserves the chunk invariant. -/
theorem chunk_dropLast {p : Char → Bool} :
    ∀ (n : Nat) (l : List Char) (c : Char), l.length ≤ n →
      ChunkOK p (l ++ [c]) = true → c ≠ 'H' → c ≠ 'h' →
      ChunkOK p l = true := by
  intro n
  induction n using Nat.strong_induction_on with
  | _ n ih =>
    intro l c hlen h hH hh
    cases l with
    | nil => rfl
    | cons x l' =>
      rcases ChunkOK_cases h with habs | ⟨r2, heq, hr⟩ | ⟨r2, heq, hr⟩ |
        ⟨c0, r, heq, hcT, hcC, hpc, hr⟩
      · exact absurd habs (by simp)
      · cases l' with
        | nil =>
          injection heq with h1 h2
          injection h2 with h3 _
          exact absurd h3 hH
        | cons y l'' =>
          injection heq with h1 h2
          injection h2 with h3 h4
          subst h1
          subst h3
          rw [ChunkOK_TH]
          have hlt : ('H' :: l'').length ≤ n := by
            have : (('T' : Char) :: 'H' :: l'').length ≤ n := hlen
            simp only [List.length_cons] at this ⊢
            omega
          exact ih l''.length (by simp at hlt; omega) l'' c le_rfl
            (by rw [← h4] at hr; exact hr) hH hh
      · cases l' with
        | nil =>
          injection heq with h1 h2
          injection h2 with h3 _
          exact absurd h3 hh
        | cons y l'' =>
          injection heq with h1 h2
          injection h2 with h3 h4
          subst h1
          subst h3
          rw [ChunkOK_Ch]
          have hlt : (('C' : Char) :: 'h' :: l'').length ≤ n := hlen
          simp only [List.length_cons] at hlt
          exact ih l''.length (by omega) l'' c le_rfl
            (by rw [← h4] at hr; exact hr) hH hh
      · injection heq with h1 h2
        subst h1
        rw [ChunkOK_cons_of_ne hcT hcC, hpc]
        have hlt : (x :: l').length ≤ n := hlen
        simp only [List.length_cons] at hlt
        rw [ih l'.length (by omega) l' c le_rfl (by rw [← h2] at hr; exact hr) hH hh]
        rfl

/-- Trailing-s detachment preserves the chunk invariant. -/
theorem detachS_chunk {p : Char → Bool} {l : List Char}
    (h : ChunkOK p l = true) : ChunkOK p (detachS l).1 = true := by
  unfold detachS
  split_ifs with h1 h2
  · obtain ⟨hne, hlast⟩ := h1
    have hgl : l.getLast hne = 's' := by
      rw [List.getLast?_eq_getLast l hne] at hlast
      injection hlast
    have hdec : l.dropLast ++ ['s'] = l := by
      rw [← hgl]
      exact List.dropLast_append_getLast hne
    exact chunk_dropLast l.dropLast.length l.dropLast 's' le_rfl
      (by rw [hdec]; exact h) (by decide) (by decide)
  · exact h
  · exact h

/-- Trailing-e detachment preserves the chunk invariant. -/
theorem detachE_chunk {p : Char → Bool} {l : List Char}
    (h : ChunkOK p l = true) : ChunkOK p (detachE l).1 = true := by
  unfold detachE
  split_ifs with h1
  · obtain ⟨hlen, hlast, -⟩ := h1
    have hne : l ≠ [] := by
      intro heq
      rw [heq] at hlen
      simp at hlen
    have hgl : l.getLast hne = 'e' := by
      rw [List.getLast?_eq_getLast l hne] at hlast
      injection hlast
    have hdec : l.dropLast ++ ['e'] = l := by
      rw [← hgl]
      exact List.dropLast_append_getLast hne
    exact chunk_dropLast l.dropLast.length l.dropLast 'e' le_rfl
      (by rw [hdec]; exact h) (by decide) (by decide)
  · exact h

theorem lower_fix {c : Char} (h : isLowerAZ c = true) : pyLower c = c :=
  (by decide : ∀ u ∈ lowerAZchars, pyLower u = u) _ (contains_iff_mem.mp h)

theorem map_lower_fix {w : List Char} (hw : ∀ c ∈ w, isLowerAZ c = true) :
    w.map pyLower = w := by
  induction w with
  | nil => rfl
  | cons c r ih =>
    simp only [List.map_cons, lower_fix (hw c (by simp)),
      ih (fun d hd => hw d (by simp [hd]))]

/-- For an all-lowercase token the fully preprocessed, suffix-detached
buffer satisfies the final chunk invariant. -/
theorem preprocess_chunk (w : List Char) (hw : ∀ c ∈ w, isLowerAZ c = true) :
    ChunkOK pFinal (transducerBuffer w) = true := by
  unfold transducerBuffer tengwar_preprocess
  rw [map_lower_fix hw]
  exact detachE_chunk (detachS_chunk (chunk5_yPass (chunk4_qFold (chunk3_rPass
    (chunk2_pass2 (replace_th w).length _ le_rfl
      (stage1_replace_th w (stage1_of_lower w hw)))))))

/-- The plain alphabet of the final buffer invariant, as an explicit list. -/
def pFinalList : List Char := "abdefghijklmnoprstuvwxyz".toList ++ ['R', 'Y']

theorem pFinal_mem {c : Char} (h : pFinal c = true) : c ∈ pFinalList := by
  unfold pFinal p4chars at h
  simp only [Bool.or_eq_true] at h
  rcases h with (h | h) | h
  · exact List.mem_append_left _ (contains_iff_mem.mp h)
  · rw [eq_of_beq h]; decide
  · rw [eq_of_beq h]; decide

theorem double_second {a b g : Char} (h : double? a b = some g) (hT : a ≠ 'T') :
    b = 'h' ∨ b = 'g' ∨ b = 'd' := by
  unfold double? at h
  rw [Option.map_eq_some'] at h
  obtain ⟨e, he, -⟩ := h
  have hm := List.mem_of_find?_eq_some he
  have hp := List.find?_some he
  have hkey : e.1 = [a, b] := eq_of_beq hp
  have h4 := (by decide : ∀ e ∈ doublesList,
    e.1.getLast? = some 'h' ∨ e.1.getLast? = some 'H' ∨
    e.1.getLast? = some 'g' ∨ e.1.getLast? = some 'd') _ hm
  have hH := (by decide : ∀ e ∈ doublesList,
    e.1.getLast? = some 'H' → e.1.head? = some 'T') _ hm
  rw [hkey] at h4 hH
  simp only [List.getLast?, List.head?, Option.some.injEq] at h4 hH
  rcases h4 with h | h | h | h
  · exact Or.inl h
  · exact absurd (hH h) hT
  · exact Or.inr (Or.inl h)
  · exact Or.inr (Or.inr h)

theorem chunk_tail_of_plain_head {p : Char → Bool} {b : Char} {r : List Char}
    (h : ChunkOK p (b :: r) = true) (hT : b ≠ 'T') (hC : b ≠ 'C') :
    ChunkOK p r = true := by
  rw [ChunkOK_cons_of_ne hT hC] at h
  simp only [Bool.and_eq_true] at h
  exact h.2

/-- On a buffer satisfying the final chunk invariant the transducer never
raises: every position is consumed by a digraph, a consonant, a vowel or
the special `x` case. -/
theorem emit_some_of_chunk :
    ∀ l, ChunkOK pFinal l = true → (tengwar_emit l).isSome = true := by
  have hhandled : ∀ u ∈ pFinalList,
      (isVowelKey u || (consonant? u).isSome || (u == 'x')) = true := by decide
  have halpha : ∀ u ∈ pFinalList, pyIsAlpha u = true := by decide
  intro l
  induction l using tengwar_emit.induct with
  | case1 => intro _; rfl
  | case2 c hna =>
    intro h
    unfold tengwar_emit
    rw [if_pos hna]
    rfl
  | case3 c hna hv =>
    intro h
    unfold tengwar_emit
    rw [if_neg hna, if_pos hv, show vfc? carrierChar = some 3 from rfl]
    obtain ⟨va, hva⟩ :=
      Option.isSome_iff_exists.mp (@vowelGlyph_isSome c 3 hv (by norm_num))
    simp [hva]
  | case4 c hna hv g hc =>
    intro h
    unfold tengwar_emit
    rw [if_neg hna, if_neg hv, hc]
    rfl
  | case5 hna hv hc =>
    intro h
    unfold tengwar_emit
    rw [if_neg hna, if_neg hv, hc, if_pos rfl]
    rfl
  | case6 c hna hv hc hx =>
    intro h
    exfalso
    rcases ChunkOK_cases h with habs | ⟨r2, heq, -⟩ | ⟨r2, heq, -⟩ |
      ⟨c0, r0, heq, -, -, hpc, -⟩
    · simp at habs
    · injection heq with hh1 hh2; cases hh2
    · injection heq with hh1 hh2; cases hh2
    · injection heq with h1 hh2
      subst h1
      have := hhandled _ (pFinal_mem hpc)
      rw [show isVowelKey c = false by simpa using hv, hc] at this
      simp at this
      exact hx (by simpa using this)
  | case7 a b r hna ih =>
    intro h
    exfalso
    rcases ChunkOK_cases h with habs | ⟨r2, heq, -⟩ | ⟨r2, heq, -⟩ |
      ⟨c0, r0, heq, -, -, hpc, -⟩
    · simp at habs
    · injection heq with h1 hh2
      subst h1
      exact hna (by decide)
    · injection heq with h1 hh2
      subst h1
      exact hna (by decide)
    · injection heq with h1 hh2
      subst h1
      exact hna (halpha _ (pFinal_mem hpc))
  | case8 a b r hna g hd ih =>
    intro h
    have hr : ChunkOK pFinal r = true := by
      rcases ChunkOK_cases h with habs | ⟨r2, heq, hr2⟩ | ⟨r2, heq, hr2⟩ |
        ⟨c0, r0, heq, hT0, hC0, hpc, hr0⟩
      · simp at habs
      · injection heq with hh1 hh2
        injection hh2 with hh3 h3
        rw [h3]
        exact hr2
      · injection heq with hh1 hh2
        injection hh2 with hh3 h3
        rw [h3]
        exact hr2
      · injection heq with h1 h2
        subst h1
        rcases double_second hd hT0 with rfl | rfl | rfl <;>
          · rw [← h2] at hr0
            exact chunk_tail_of_plain_head hr0 (by decide) (by decide)
    unfold tengwar_emit
    rw [if_neg hna, hd]
    obtain ⟨o, ho⟩ := Option.isSome_iff_exists.mp (ih hr)
    rw [ho]
    rfl
  | case9 a b r hna hd hva hvb ih =>
    intro h
    have hbr : ChunkOK pFinal (b :: r) = true := by
      have haT : a ≠ 'T' := by
        intro heq; subst heq; exact absurd hva (by decide)
      have haC : a ≠ 'C' := by
        intro heq; subst heq; exact absurd hva (by decide)
      exact chunk_tail_of_plain_head h haT haC
    unfold tengwar_emit
    rw [if_neg hna, hd, if_pos hva, if_pos hvb,
      show vfc? carrierChar = some 3 from rfl]
    obtain ⟨va, hva2⟩ :=
      Option.isSome_iff_exists.mp (@vowelGlyph_isSome a 3 hva (by norm_num))
    obtain ⟨o, ho⟩ := Option.isSome_iff_exists.mp (ih hbr)
    simp [hva2, ho]
  | case10 a b r hna hd hva hvb ih =>
    intro h
    have hbr : ChunkOK pFinal (b :: r) = true := by
      have haT : a ≠ 'T' := by
        intro heq; subst heq; exact absurd hva (by decide)
      have haC : a ≠ 'C' := by
        intro heq; subst heq; exact absurd hva (by decide)
      exact chunk_tail_of_plain_head h haT haC
    unfold tengwar_emit
    rw [if_neg hna, hd, if_pos hva, if_neg hvb]
    obtain ⟨o, ho⟩ := Option.isSome_iff_exists.mp (ih hbr)
    obtain ⟨g0, t, rfl, hg0⟩ := emit_head_vfc _ _ ho (by simp)
    obtain ⟨i, hi⟩ := Option.isSome_iff_exists.mp hg0
    obtain ⟨va, hva2⟩ :=
      Option.isSome_iff_exists.mp (vowelGlyph_isSome hva (vfc_lt_four hi))
    rw [ho]
    simp [hi, hva2]
  | case11 a b r hna hd hva g hc ih =>
    intro h
    have hbr : ChunkOK pFinal (b :: r) = true := by
      have haT : a ≠ 'T' := by
        intro heq
        subst heq
        rcases ChunkOK_cases h with habs | ⟨r2, heq2, -⟩ | ⟨r2, heq2, -⟩ |
          ⟨c0, r0, heq2, hT0, -, -, -⟩
        · simp at habs
        · injection heq2 with hh1 hh2
          injection hh2 with h3 hh4
          subst h3
          rw [show double? 'T' 'H' = some '4' from rfl] at hd
          cases hd
        · injection heq2 with h1 hh2
          cases h1
        · injection heq2 with h1 hh2
          exact hT0 h1.symm
      have haC : a ≠ 'C' := by
        intro heq
        subst heq
        rcases ChunkOK_cases h with habs | ⟨r2, heq2, -⟩ | ⟨r2, heq2, -⟩ |
          ⟨c0, r0, heq2, -, hC0, -, -⟩
        · simp at habs
        · injection heq2 with h1 hh2
          cases h1
        · injection heq2 with hh1 hh2
          injection hh2 with h3 hh4
          subst h3
          rw [show double? 'C' 'h' = some 'a' from rfl] at hd
          cases hd
        · injection heq2 with h1 hh2
          exact hC0 h1.symm
      exact chunk_tail_of_plain_head h haT haC
    unfold tengwar_emit
    rw [if_neg hna, hd, if_neg hva, hc]
    obtain ⟨o, ho⟩ := Option.isSome_iff_exists.mp (ih hbr)
    rw [ho]
    rfl
  | case12 b r hna hd hva hc ih =>
    intro h
    have hbr : ChunkOK pFinal (b :: r) = true :=
      chunk_tail_of_plain_head h (by decide) (by decide)
    unfold tengwar_emit
    rw [if_neg hna, hd, if_neg hva, hc, if_pos rfl]
    obtain ⟨o, ho⟩ := Option.isSome_iff_exists.mp (ih hbr)
    rw [ho]
    rfl
  | case13 a b r hna hd hva hc hx =>
    intro h
    exfalso
    rcases ChunkOK_cases h with habs | ⟨r2, heq, -⟩ | ⟨r2, heq, -⟩ |
      ⟨c0, r0, heq, -, -, hpc, -⟩
    · simp at habs
    · injection heq with h1 h2
      injection h2 with h3 hh4
      subst h1
      subst h3
      rw [show double? 'T' 'H' = some '4' from rfl] at hd
      cases hd
    · injection heq with h1 h2
      injection h2 with h3 hh4
      subst h1
      subst h3
      rw [show double? 'C' 'h' = some 'a' from rfl] at hd
      cases hd
    · injection heq with h1 hh2
      subst h1
      have := hhandled _ (pFinal_mem hpc)
      rw [show isVowelKey a = false by simpa using hva, hc] at this
      simp at this
      exact hx (by simpa using this)

/-- Claim C4 (confirmed): for every word token consisting only of ASCII
letters a–z, script transliteration performs only successful table
lookups: `tengwar_word` succeeds (no error is raised); after all
preprocessing rewrites every buffer satisfies the chunk invariant, under
which every position is consumed by a digraph, consonant, vowel or the
special `x` case (`emit_some_of_chunk`); the first glyph of every
transduced remainder is a key of `vowels_for_consonants`; and every
vowel-series index stored in that table is one of the four classes 0–3. -/
theorem c4_total_lookups :
    (∀ w : List Char, (∀ c ∈ w, isLowerAZ c = true) →
      (tengwar_word w).isSome = true) ∧
    (∀ b o, tengwar_emit b = some o → b ≠ [] →
      ∃ g t, o = g :: t ∧ (vfc? g).isSome = true) ∧
    (∀ g i, vfc? g = some i → i < 4) := by
  refine ⟨?_, fun b o ho hb => emit_head_vfc b o ho hb, fun g i h => vfc_lt_four h⟩
  intro w hw
  unfold tengwar_word
  by_cases h1 : w.map pyLower = []
  · rw [if_pos h1]; rfl
  rw [if_neg h1]
  by_cases h2 : w.map pyLower = "of".toList
  · rw [if_pos h2]; rfl
  rw [if_neg h2]
  by_cases h3 : w.map pyLower = "the".toList
  · rw [if_pos h3]; rfl
  rw [if_neg h3]
  have hchunk := preprocess_chunk w hw
  have hcoreOut : ∃ out0,
      (if (detachE (detachS (tengwar_preprocess w)).1).1 = [] then
        some [carrierChar]
      else tengwar_emit (detachE (detachS (tengwar_preprocess w)).1).1) =
        some out0 ∧ out0 ≠ [] := by
    by_cases hb : (detachE (detachS (tengwar_preprocess w)).1).1 = []
    · rw [if_pos hb]
      exact ⟨[carrierChar], rfl, by simp⟩
    · rw [if_neg hb]
      obtain ⟨o, ho⟩ := Option.isSome_iff_exists.mp (emit_some_of_chunk _ hchunk)
      obtain ⟨g, t, rfl, -⟩ := emit_head_vfc _ _ ho hb
      exact ⟨g :: t, ho, by simp⟩
  obtain ⟨out0, hcore, hne0⟩ := hcoreOut
  simp only [hcore, Option.some_bind]
  set out2 :=
    (if (detachE (detachS (tengwar_preprocess w)).1).2 then
      pairMap szChar out0 ++ ['O'] else pairMap szChar out0) with hout2
  have hne2 : out2 ≠ [] := by
    rw [hout2]
    split_ifs
    · simp
    · exact pairMap_ne_nil hne0
  by_cases hs : (detachS (tengwar_preprocess w)).2 = true
  · simp only [hs, if_true]
    cases hlast : out2.getLast? with
    | none => exact absurd (List.getLast?_eq_none_iff.mp hlast) hne2
    | some c => rfl
  · rw [if_neg hs]
    rfl

/-- Claim C4, witness: the all-letters token `strengths`. -/
theorem c4_witness :
    (∀ c ∈ "strengths".toList, isLowerAZ c = true) ∧
    (tengwar_word "strengths".toList).isSome = true :=
  ⟨by decide, c4_total_lookups.1 "strengths".toList (by decide)⟩

/-! ### Claim C9 -/

/-- A character the tengwar tokenizer keeps: a word character or a member
of the recognized punctuation set. -/
def recognizedChar (c : Char) : Bool := isWordChar c || inTengwarSet c

theorem length_dropWhile_le (p : Char → Bool) :
    ∀ l : List Char, (l.dropWhile p).length ≤ l.length := by
  intro l
  induction l with
  | nil => simp
  | cons c r ih =>
    rw [List.dropWhile_cons]
    split_ifs
    · exact le_trans ih (by simp)
    · simp

theorem tokenizeFuel_congr :
    ∀ n m s, s.length ≤ n → s.length ≤ m → tokenizeFuel n s = tokenizeFuel m s := by
  intro n
  induction n using Nat.strong_induction_on with
  | _ n ih =>
    intro m s hn hm
    cases s with
    | nil => cases n <;> cases m <;> rfl
    | cons c r =>
      cases n with
      | zero => simp at hn
      | succ n' =>
        cases m with
        | zero => simp at hm
        | succ m' =>
          simp only [tokenizeFuel]
          simp only [List.length_cons] at hn hm
          by_cases hw : isWordChar c = true
          · rw [if_pos hw, if_pos hw,
              ih n' (by omega) m' (r.dropWhile isWordChar)
                (le_trans (length_dropWhile_le _ r) (by omega))
                (le_trans (length_dropWhile_le _ r) (by omega))]
          · rw [if_neg hw, if_neg hw]
            split_ifs
            · rw [ih n' (by omega) m' r (by omega) (by omega)]
            · exact ih n' (by omega) m' r (by omega) (by omega)

theorem tokenizeFuel_join :
    ∀ n s, s.length ≤ n →
      (tokenizeFuel n s).flatten = s.filter recognizedChar := by
  intro n
  induction n using Nat.strong_induction_on with
  | _ n ih =>
    intro s hlen
    cases s with
    | nil => cases n <;> rfl
    | cons c r =>
      cases n with
      | zero => simp at hlen
      | succ m =>
        simp only [tokenizeFuel]
        simp only [List.length_cons] at hlen
        by_cases hw : isWordChar c = true
        · rw [if_pos hw]
          have hrec : recognizedChar c = true := by
            unfold recognizedChar
            rw [hw]
            rfl
          have hfil : List.filter recognizedChar (r.takeWhile isWordChar) =
              r.takeWhile isWordChar := by
            rw [List.filter_eq_self]
            intro a ha
            unfold recognizedChar
            rw [List.mem_takeWhile_imp ha]
            rfl
          have hsplit : List.filter recognizedChar r =
              r.takeWhile isWordChar ++
                List.filter recognizedChar (r.dropWhile isWordChar) := by
            conv_lhs => rw [← List.takeWhile_append_dropWhile isWordChar r]
            rw [List.filter_append, hfil]
          rw [show ((c :: r.takeWhile isWordChar) ::
              tokenizeFuel m (r.dropWhile isWordChar)).flatten =
              (c :: r.takeWhile isWordChar) ++
                (tokenizeFuel m (r.dropWhile isWordChar)).flatten from rfl,
            ih m (by omega) (r.dropWhile isWordChar)
              (le_trans (length_dropWhile_le _ r) (by omega)),
            List.filter_cons, if_pos hrec, hsplit]
          simp
        · rw [if_neg hw]
          split_ifs with hp
          · have hrec : recognizedChar c = true := by
              unfold recognizedChar
              rw [hp]
              simp
            rw [show ([c] :: tokenizeFuel m r).flatten =
                [c] ++ (tokenizeFuel m r).flatten from rfl,
              ih m (by omega) r (by omega), List.filter_cons, if_pos hrec]
            simp
          · have hrec : recognizedChar c = false := by
              unfold recognizedChar
              simp only [Bool.or_eq_true, not_or] at *
              simp [hw, hp]
            simp only [List.filter_cons, hrec]
            exact ih m (by omega) r (by omega)

theorem tokenizeFuel_tokens :
    ∀ n s, s.length ≤ n → ∀ t ∈ tokenizeFuel n s,
      t ≠ [] ∧ ((∀ c ∈ t, isWordChar c = true) ∨
        (∃ c, t = [c] ∧ inTengwarSet c = true ∧ isWordChar c = false)) := by
  intro n
  induction n using Nat.strong_induction_on with
  | _ n ih =>
    intro s hlen t ht
    cases s with
    | nil =>
      cases n <;> simp [tokenizeFuel] at ht
    | cons c r =>
      cases n with
      | zero => simp at hlen
      | succ m =>
        simp only [tokenizeFuel] at ht
        simp only [List.length_cons] at hlen
        by_cases hw : isWordChar c = true
        · rw [if_pos hw] at ht
          rcases List.mem_cons.mp ht with rfl | ht2
          · refine ⟨by simp, Or.inl ?_⟩
            intro d hd
            rcases List.mem_cons.mp hd with rfl | hd2
            · exact hw
            · exact List.mem_takeWhile_imp hd2
          · exact ih m (by omega) (r.dropWhile isWordChar)
              (le_trans (length_dropWhile_le _ r) (by omega)) t ht2
        · rw [if_neg hw] at ht
          split_ifs at ht with hp
          · rcases List.mem_cons.mp ht with rfl | ht2
            · exact ⟨by simp, Or.inr ⟨c, rfl, hp, by simpa using hw⟩⟩
            · exact ih m (by omega) r (by omega) t ht2
          · exact ih m (by omega) r (by omega) t ht

theorem takeWhile_all_append {p : Char → Bool} :
    ∀ (u v : List Char), (∀ c ∈ u, p c = true) →
      (u ++ v).takeWhile p = u ++ v.takeWhile p := by
  intro u
  induction u with
  | nil => intro v _; rfl
  | cons c u' ih =>
    intro v hu
    rw [List.cons_append, List.takeWhile_cons, if_pos (hu c (by simp)),
      ih v (fun d hd => hu d (by simp [hd]))]
    rfl

theorem dropWhile_all_append {p : Char → Bool} :
    ∀ (u v : List Char), (∀ c ∈ u, p c = true) →
      (u ++ v).dropWhile p = v.dropWhile p := by
  intro u
  induction u with
  | nil => intro v _; rfl
  | cons c u' ih =>
    intro v hu
    rw [List.cons_append, List.dropWhile_cons, if_pos (hu c (by simp))]
    exact ih v (fun d hd => hu d (by simp [hd]))

/-- Claim C9 (confirmed): the tengwar tokenizer is lossless over the
recognized set — concatenating the tokens reconstructs the input after
deleting exactly the unrecognized characters; every token is a nonempty
run of word characters or a single punctuation character (punctuation and
whitespace tokens have length exactly 1); and word runs are greedy-maximal:
a maximal run of word characters (one followed by a non-word character or
the end of input) always becomes a single token. -/
theorem c9_tokenizer_lossless :
    (∀ s : List Char, (tokenize s).flatten = s.filter recognizedChar) ∧
    (∀ s : List Char, ∀ t ∈ tokenize s,
      t ≠ [] ∧ ((∀ c ∈ t, isWordChar c = true) ∨
        (∃ c, t = [c] ∧ inTengwarSet c = true ∧ isWordChar c = false))) ∧
    (∀ u v : List Char, u ≠ [] → (∀ c ∈ u, isWordChar c = true) →
      (∀ d, v.head? = some d → isWordChar d = false) →
      tokenize (u ++ v) = u :: tokenize v) := by
  refine ⟨fun s => tokenizeFuel_join s.length s le_rfl,
    fun s => tokenizeFuel_tokens s.length s le_rfl, ?_⟩
  intro u v hu huw hv
  cases u with
  | nil => exact absurd rfl hu
  | cons c u' =>
    have htake : v.takeWhile isWordChar = [] := by
      cases v with
      | nil => rfl
      | cons d v' =>
        rw [List.takeWhile_cons, if_neg (by simp [hv d rfl])]
    have hdrop : v.dropWhile isWordChar = v := by
      cases v with
      | nil => rfl
      | cons d v' =>
        rw [List.dropWhile_cons, if_neg (by simp [hv d rfl])]
    show tokenizeFuel ((c :: u') ++ v).length ((c :: u') ++ v) = _
    rw [show ((c :: u') ++ v).length = (u' ++ v).length + 1 by simp]
    simp only [tokenizeFuel, List.cons_append]
    rw [if_pos (huw c (by simp))]
    simp only [List.append_eq]
    rw [takeWhile_all_append u' v (fun d hd => huw d (by simp [hd])), htake,
      dropWhile_all_append u' v (fun d hd => huw d (by simp [hd])), hdrop,
      List.append_nil]
    rw [tokenizeFuel_congr (u' ++ v).length v.length v (by simp) le_rfl]
    rfl

/-- Claim C9, witness: the theorem applied at concrete inputs — the word
run `ab` followed by the non-word suffix `-x` forms one maximal token, and
the token structure of `tokenize "ab-"`. -/
theorem c9_witness :
    tokenize ("ab".toList ++ "-x".toList) = "ab".toList :: tokenize "-x".toList ∧
    ("ab".toList ≠ [] ∧ ((∀ c ∈ "ab".toList, isWordChar c = true) ∨
      (∃ c, "ab".toList = [c] ∧ inTengwarSet c = true ∧ isWordChar c = false))) :=
  ⟨c9_tokenizer_lossless.2.2 "ab".toList "-x".toList (by decide) (by decide)
      (by intro d hd; injection hd with h; rw [← h]; decide),
   c9_tokenizer_lossless.2.1 "ab-".toList "ab".toList (by decide)⟩

/-! ### Claim C10: case-insensitivity of both top-level conversions -/

/-- Every character is either fixed by `pyLower` or forms one of the
upper/lower pairs of its table. -/
theorem pyLower_cases (c : Char) :
    pyLower c = c ∨ (c, pyLower c) ∈ pyLowerPairs := by
  unfold pyLower
  cases hl : pyLowerPairs.lookup c with
  | none => exact Or.inl rfl
  | some d => exact Or.inr (lookup_mem _ _ _ hl)

/-- Lowercasing preserves word-character status. -/
theorem pyLower_wordChar (c : Char) : isWordChar (pyLower c) = isWordChar c := by
  rcases pyLower_cases c with h | h
  · rw [h]
  · have hx := (by decide :
      ∀ p ∈ pyLowerPairs, isWordChar p.2 = isWordChar p.1) (c, pyLower c) h
    exact hx

/-- Non-word characters are fixed by `pyLower` (every table key is a
letter). -/
theorem pyLower_fix_nonword {c : Char} (h : isWordChar c = false) :
    pyLower c = c := by
  rcases pyLower_cases c with h2 | h2
  · exact h2
  · have hk := (by decide :
      ∀ p ∈ pyLowerPairs, isWordChar p.1 = true) (c, pyLower c) h2
    rw [h] at hk
    exact Bool.noConfusion hk

/-- Lowercasing preserves digit status (letters are not digits). -/
theorem pyLower_digit (c : Char) : (pyLower c).isDigit = c.isDigit := by
  rcases pyLower_cases c with h | h
  · rw [h]
  · have hx := (by decide :
      ∀ p ∈ pyLowerPairs, p.2.isDigit = p.1.isDigit) (c, pyLower c) h
    exact hx

/-- Lowercasing preserves the Python digit property. -/
theorem pyLower_pyIsDigit (c : Char) : pyIsDigit (pyLower c) = pyIsDigit c := by
  rcases pyLower_cases c with h | h
  · rw [h]
  · have hx := (by decide :
      ∀ p ∈ pyLowerPairs, pyIsDigit p.2 = pyIsDigit p.1) (c, pyLower c) h
    exact hx

/-- `pyLower` is idempotent (its values are not keys). -/
theorem pyLower_idem (c : Char) : pyLower (pyLower c) = pyLower c := by
  rcases pyLower_cases c with h | h
  · rw [h]
    exact h
  · have hx := (by decide :
      ∀ p ∈ pyLowerPairs, pyLower p.2 = p.2) (c, pyLower c) h
    exact hx

/-- Lowercasing preserves whitespace status. -/
theorem pyLower_space (c : Char) : pyIsSpace (pyLower c) = pyIsSpace c := by
  rcases pyLower_cases c with h | h
  · rw [h]
  · have hx := (by decide :
      ∀ p ∈ pyLowerPairs, pyIsSpace p.2 = pyIsSpace p.1) (c, pyLower c) h
    exact hx

/-- Whitespace characters are fixed by `pyLower`. -/
theorem pyLower_fix_space {c : Char} (h : pyIsSpace c = true) :
    pyLower c = c := by
  rcases pyLower_cases c with h2 | h2
  · exact h2
  · have hk := (by decide :
      ∀ p ∈ pyLowerPairs, pyIsSpace p.1 = false) (c, pyLower c) h2
    rw [h] at hk
    exact Bool.noConfusion hk

/-- The apostrophe is neither a key nor a value of the lowercasing table. -/
theorem pyLower_apost (c : Char) :
    (pyLower c == apostChar) = (c == apostChar) := by
  rcases pyLower_cases c with h | h
  · rw [h]
  · have hx := (by decide :
      ∀ p ∈ pyLowerPairs, (p.2 == apostChar) = (p.1 == apostChar)) (c, pyLower c) h
    exact hx

/-- The tengwar tokenizer commutes with per-character lowercasing: word
status is preserved and non-word characters are fixed. -/
theorem tokenizeFuel_lower :
    ∀ n s, s.length ≤ n →
      tokenizeFuel n (s.map pyLower) = (tokenizeFuel n s).map (List.map pyLower) := by
  intro n
  induction n using Nat.strong_induction_on with
  | _ n ih =>
    intro s hlen
    cases s with
    | nil => cases n <;> rfl
    | cons c r =>
      cases n with
      | zero => exact absurd hlen (by simp)
      | succ m =>
        have hr : r.length ≤ m := Nat.le_of_succ_le_succ hlen
        have hcompW : isWordChar ∘ pyLower = isWordChar := by
          funext x
          exact pyLower_wordChar x
        simp only [List.map_cons, tokenizeFuel]
        rw [pyLower_wordChar c]
        by_cases hw : isWordChar c = true
        · rw [if_pos hw, if_pos hw, List.takeWhile_map, List.dropWhile_map, hcompW,
            ih m (Nat.lt_succ_self m) (r.dropWhile isWordChar)
              (le_trans (length_dropWhile_le isWordChar r) hr)]
          simp only [List.map_cons]
        · rw [if_neg hw, if_neg hw]
          have hfix : pyLower c = c := pyLower_fix_nonword (Bool.eq_false_iff.mpr hw)
          rw [hfix]
          by_cases ht : inTengwarSet c = true
          · rw [if_pos ht, if_pos ht, ih m (Nat.lt_succ_self m) r hr]
            simp only [List.map_cons, List.map_nil, hfix]
          · rw [if_neg ht, if_neg ht]
            exact ih m (Nat.lt_succ_self m) r hr

/-- The tengwar tokenizer on a lowercased input yields the lowercased
tokens of the original input. -/
theorem tokenize_lower (s : List Char) :
    tokenize (s.map pyLower) = (tokenize s).map (List.map pyLower) := by
  show tokenizeFuel (s.map pyLower).length (s.map pyLower) =
    (tokenizeFuel s.length s).map (List.map pyLower)
  rw [List.length_map]
  exact tokenizeFuel_lower s.length s le_rfl

/-- The empty list is a prefix of every list. -/
theorem isPrefixOf_nil_left (u : List Char) :
    List.isPrefixOf ([] : List Char) u = true := by
  cases u <;> rfl

/-- Replacing a single character by the empty string is a filter. -/
theorem pyReplaceFuel_single_del (q : Char) :
    ∀ n l, l.length ≤ n →
      pyReplaceFuel [q] [] n l = l.filter (fun d => !(d == q)) := by
  intro n
  induction n with
  | zero =>
    intro l hl
    rw [List.eq_nil_of_length_eq_zero (Nat.le_zero.mp hl)]
    rfl
  | succ m ih =>
    intro l hl
    cases l with
    | nil => rfl
    | cons c r =>
      have hr : r.length ≤ m := Nat.le_of_succ_le_succ hl
      simp only [pyReplaceFuel]
      by_cases hc : c = q
      · rw [if_pos (And.intro (List.cons_ne_nil q [])
            (by rw [hc]
                show ((q == q) && List.isPrefixOf ([] : List Char) r) = true
                rw [beq_self_eq_true, Bool.true_and]
                exact isPrefixOf_nil_left r))]
        show pyReplaceFuel [q] [] m r = List.filter (fun d => !(d == q)) (c :: r)
        rw [ih r hr, List.filter_cons, if_neg (by rw [hc]; simp)]
      · have hqc : (q == c) = false := beq_eq_false_iff_ne.mpr (Ne.symm hc)
        rw [if_neg (fun hcon => by
            have h2 := hcon.2
            rw [show List.isPrefixOf [q] (c :: r) =
                ((q == c) && List.isPrefixOf ([] : List Char) r) from rfl,
              hqc, Bool.false_and] at h2
            exact Bool.noConfusion h2)]
        rw [ih r hr, List.filter_cons, if_pos (by simp [hc])]

/-- Apostrophe stripping commutes with per-character lowercasing. -/
theorem pyReplace_apost_lower (t : List Char) :
    pyReplace [apostChar] [] (t.map pyLower) =
      (pyReplace [apostChar] [] t).map pyLower := by
  show pyReplaceFuel [apostChar] [] (t.map pyLower).length (t.map pyLower) =
    (pyReplaceFuel [apostChar] [] t.length t).map pyLower
  rw [List.length_map,
    pyReplaceFuel_single_del apostChar t.length (t.map pyLower) (by simp),
    pyReplaceFuel_single_del apostChar t.length t le_rfl, List.filter_map]
  have hcomp : ((fun d => !(d == apostChar)) ∘ pyLower) =
      (fun d => !(d == apostChar)) := by
    funext c
    show (!(pyLower c == apostChar)) = (!(c == apostChar))
    rw [pyLower_apost]
  rw [hcomp]

/-- `tengwar_word` lowercases internally, so prior lowercasing is
absorbed. -/
theorem tengwar_word_lower (t : List Char) :
    tengwar_word (t.map pyLower) = tengwar_word t := by
  have hcomp : pyLower ∘ pyLower = pyLower := by
    funext c
    exact pyLower_idem c
  have hmm : (t.map pyLower).map pyLower = t.map pyLower := by
    rw [List.map_map, hcomp]
  rw [tengwar_word, tengwar_word, tengwar_preprocess, tengwar_preprocess, hmm]

/-- A token of word characters matches no punctuation key. -/
theorem punctuationLookup_word {u : List Char}
    (hu : ∀ c ∈ u, isWordChar c = true) : punctuationLookup u = none := by
  cases u with
  | nil => rfl
  | cons c u2 =>
    cases u2 with
    | cons d u3 => rfl
    | nil =>
      show punctuationPairs.lookup c = none
      cases hl : punctuationPairs.lookup c with
      | none => rfl
      | some v =>
        have hk := (by decide : ∀ p ∈ punctuationPairs, isWordChar p.1 = false)
          (c, v) (lookup_mem _ _ _ hl)
        rw [hu c (by simp)] at hk
        exact Bool.noConfusion hk

/-- The digit-token test is invariant under lowercasing. -/
theorem pyIsDigitStr_lower (t : List Char) :
    pyIsDigitStr (t.map pyLower) = pyIsDigitStr t := by
  have hcomp : (Char.isDigit ∘ pyLower) = Char.isDigit := by
    funext c
    exact pyLower_digit c
  have hE : (t.map pyLower).isEmpty = t.isEmpty := by cases t <;> rfl
  unfold pyIsDigitStr
  rw [hE, List.all_map, hcomp]

/-- The Python digit-token test is invariant under lowercasing. -/
theorem pyIsDigitTok_lower (t : List Char) :
    pyIsDigitTok (t.map pyLower) = pyIsDigitTok t := by
  have hcomp : (pyIsDigit ∘ pyLower) = pyIsDigit := by
    funext c
    exact pyLower_pyIsDigit c
  have hE : (t.map pyLower).isEmpty = t.isEmpty := by cases t <;> rfl
  unfold pyIsDigitTok
  rw [hE, List.all_map, hcomp]

/-- Per-token case-insensitivity of `tengwar_token` over tokenizer
tokens. -/
theorem tengwar_token_lower {t : List Char}
    (h : (∀ c ∈ t, isWordChar c = true) ∨
      (∃ c, t = [c] ∧ inTengwarSet c = true ∧ isWordChar c = false)) :
    tengwar_token (t.map pyLower) = tengwar_token t := by
  rcases h with hw | ⟨c, rfl, _hp, hnw⟩
  · have h1 : punctuationLookup t = none := punctuationLookup_word hw
    have h2 : punctuationLookup (t.map pyLower) = none :=
      punctuationLookup_word (by
        intro d hd
        rw [List.mem_map] at hd
        obtain ⟨e, he, rfl⟩ := hd
        rw [pyLower_wordChar]
        exact hw e he)
    simp only [tengwar_token, h1, h2, pyIsDigitStr_lower, pyIsDigitTok_lower]
    by_cases hd : pyIsDigitTok t = true
    · rw [if_pos hd, if_pos hd]
      by_cases hd2 : pyIsDigitStr t = true
      · rw [if_pos hd2, if_pos hd2]
        rfl
      · rw [if_neg hd2, if_neg hd2]
    · rw [if_neg hd, if_neg hd, pyReplace_apost_lower, tengwar_word_lower]

  · rw [show [c].map pyLower = [c] by simp [pyLower_fix_nonword hnw]]

/-- Folding the token step over lowercased tokens yields the same result
when every token is insensitive to lowercasing. -/
theorem foldlM_token_lower :
    ∀ (L : List (List Char)) (acc : List Char),
      (∀ t ∈ L, tengwar_token (t.map pyLower) = tengwar_token t) →
      List.foldlM (fun acc item => (tengwar_token item).map (acc ++ ·)) acc
          (L.map (List.map pyLower)) =
        List.foldlM (fun acc item => (tengwar_token item).map (acc ++ ·)) acc L := by
  intro L
  induction L with
  | nil => intro acc _; rfl
  | cons t L ih =>
    intro acc h
    simp only [List.map_cons, List.foldlM_cons, h t (by simp),
      Option.bind_eq_bind]
    cases htok : tengwar_token t with
    | none => simp only [htok, Option.map_none', Option.none_bind]
    | some g =>
      simp only [htok, Option.map_some', Option.some_bind]
      exact ih (acc ++ g) (fun u hu => h u (by simp [hu]))

/-- Script transliteration is insensitive to prior lowercasing. -/
theorem tengwar_start_lower (s : List Char) :
    tengwar_start (s.map pyLower) = tengwar_start s := by
  unfold tengwar_start
  rw [show tokenize (s.map pyLower) = (tokenize s).map (List.map pyLower) from
    tokenize_lower s]
  exact foldlM_token_lower (tokenize s) []
    (fun t ht => tengwar_token_lower (tokenizeFuel_tokens s.length s le_rfl t ht).2)

/-- `strip` yields the empty string exactly on all-whitespace inputs. -/
theorem strip_nil_iff {l : List Char} :
    pyStrip l = [] ↔ ∀ c ∈ l, pyIsSpace c = true := by
  constructor
  · intro h
    unfold pyStrip at h
    rw [List.reverse_eq_nil_iff, List.dropWhile_eq_nil_iff] at h
    have hd : ∀ c ∈ l.dropWhile pyIsSpace, pyIsSpace c = true := by
      intro c hc
      exact h c (List.mem_reverse.mpr hc)
    intro c hc
    rw [← List.takeWhile_append_dropWhile pyIsSpace l, List.mem_append] at hc
    rcases hc with hc | hc
    · exact List.mem_takeWhile_imp hc
    · exact hd c hc
  · intro h
    unfold pyStrip
    rw [List.dropWhile_eq_nil_iff.mpr h]
    rfl

/-- Conlang transliteration is insensitive to prior lowercasing. -/
theorem convert_bs_lower (s : List Char) :
    convert_to_black_speech (s.map pyLower) = convert_to_black_speech s := by
  have hcomp : pyLower ∘ pyLower = pyLower := by
    funext c
    exact pyLower_idem c
  by_cases hsp : ∀ c ∈ s, pyIsSpace c = true
  · have h1 : s.map pyLower = s.map id :=
      List.map_congr_left (fun c hc => pyLower_fix_space (hsp c hc))
    rw [h1, List.map_id]
  · have h1 : ¬ (pyStrip s).isEmpty = true := by
      intro hE
      exact hsp (strip_nil_iff.mp (List.isEmpty_iff.mp hE))
    have h2 : ¬ (pyStrip (s.map pyLower)).isEmpty = true := by
      intro hE
      have hall := strip_nil_iff.mp (List.isEmpty_iff.mp hE)
      apply hsp
      intro c hc
      have hx := hall (pyLower c) (List.mem_map_of_mem pyLower hc)
      rw [pyLower_space] at hx
      exact hx
    unfold convert_to_black_speech
    rw [if_neg h2, if_neg h1, List.map_map, hcomp]

/-- Claim C10: both top-level conversions are case-insensitive — applying
them to the per-character lowercasing of the input yields the same result
as applying them to the input itself. -/
theorem c10_case_insensitive (s : List Char) :
    tengwar_start (s.map pyLower) = tengwar_start s ∧
    convert_to_black_speech (s.map pyLower) = convert_to_black_speech s :=
  ⟨tengwar_start_lower s, convert_bs_lower s⟩

end Tengwar
